import Mathlib

/-!
Verification of the broCode MCP coordination layer.

The definitions below are a shallow embedding of the code in
`mcp_server/src/brocode_mcp/` (server.py, neo4j_client.py, queries.py).
The Neo4j store is modelled as lists of nodes, containment edges, agent
nodes and CLAIM edges; every Cypher query in queries.py is translated to
an executable function on that state, and the tool entry points of
server.py are translated to functions returning a result value together
with the updated store.

Node identity follows the natural keys that every query in queries.py
uses for MATCH / MERGE (Codebase by name, Directory/File by path +
codebase, Class/Function by file_path + name + codebase, Agent by name).
Neo4j MERGE never duplicates a node for a given key, so well-formed
stores carry at most one node per key; this is the `nodesNodup`
hypothesis used by the invariant theorems.  Likewise Neo4j relationships
cannot dangle, which is the `claimEndpointsOk` hypothesis.
-/

namespace BroCode

/-- Natural-key reference to a graph node, mirroring the MATCH / MERGE keys
used throughout queries.py. -/
inductive NodeRef where
  | codebase (name : String)
  | directory (path codebase : String)
  | file (path codebase : String)
  | cls (file_path name codebase : String)
  | func (file_path name codebase : String)
  | agent (name : String)
deriving DecidableEq

/-- A graph-structure node with its properties (Agent nodes are kept
separately in the store, matching their separate role in the code). -/
inductive GNode where
  | codebase (name root_path : String)
  | directory (path codebase name : String) (depth : Int)
  | file (path codebase name extension : String) (size_bytes : Int)
  | cls (file_path name codebase : String) (line_number : Int) (base_classes : String)
  | func (file_path name codebase : String) (line_number : Int)
      (is_method : Bool) (parameters owner_class : String)
deriving DecidableEq

/-- The natural key of a node. -/
def nodeRef : GNode → NodeRef
  | .codebase n _ => .codebase n
  | .directory p cb _ _ => .directory p cb
  | .file p cb _ _ _ => .file p cb
  | .cls fp n cb _ _ => .cls fp n cb
  | .func fp n cb _ _ _ _ => .func fp n cb

/-- Containment relationship types of the schema. -/
inductive RelType where
  | containsDir | containsFile | definesFunction | definesClass | hasMethod
deriving DecidableEq

/-- A containment edge between two graph nodes. -/
structure CEdge where
  src : NodeRef
  rel : RelType
  dst : NodeRef
deriving DecidableEq

/-- A CLAIM relationship (:Agent)-[:CLAIM {claim_reason}]->(node). -/
structure ClaimEdge where
  agent : String
  target : NodeRef
  reason : String
deriving DecidableEq

/-- A message record as built by brocode_send_message
({from, content, node_path, timestamp}); `sender` models the "from" key. -/
structure Msg where
  sender : String
  content : String
  node_path : String
  timestamp : String
deriving DecidableEq

/-- An entry of an Agent mailbox: either the json.dumps of a message
record, or an arbitrary malformed string. -/
inductive StoredEntry where
  | ok (m : Msg)
  | malformed (raw : String)
deriving DecidableEq

/-- An Agent node with its properties. -/
structure AgentNode where
  name : String
  model : String
  messages : List StoredEntry
deriving DecidableEq

/-- The Neo4j store state. -/
structure Store where
  nodes : List GNode
  edges : List CEdge
  agents : List AgentNode
  claims : List ClaimEdge
deriving DecidableEq

/-- Python blank test: server.py guards inputs with
`not s or not s.strip()`, which holds exactly when every character of s
is whitespace (including the empty string). -/
def pyBlank (s : String) : Bool :=
  s.toList.all (fun ch => ch.isWhitespace)

/-! ### Shared query predicates (queries.py WHERE clauses) -/

/-- The WHERE clause shared by CHECK_NODE_EXISTS, CHECK_EXISTING_CLAIM,
CREATE_CLAIM and RELEASE_CLAIM:
`(n:Codebase AND n.name = $codebase AND $node_path = $codebase)
 OR ((n:File OR n:Directory) AND n.path = $node_path AND n.codebase = $codebase)`.
All the properties involved are key fields, so the predicate is a
function of the node reference. -/
def refMatchesClaimTarget : NodeRef → String → String → Bool
  | .codebase nm, node_path, cb => nm == cb && node_path == cb
  | .directory p pcb, node_path, cb => p == node_path && pcb == cb
  | .file p pcb, node_path, cb => p == node_path && pcb == cb
  | _, _, _ => false

/-- Node-level form of the claim-target WHERE clause. -/
def claimTargets (n : GNode) (node_path cb : String) : Bool :=
  refMatchesClaimTarget (nodeRef n) node_path cb

/-- Whether a node with the given key exists in the store (graph node or
Agent node). -/
def refExists (st : Store) (r : NodeRef) : Bool :=
  st.nodes.any (fun n => nodeRef n == r) ||
    (match r with
     | .agent nm => st.agents.any (fun a => a.name == nm)
     | _ => false)

/-! ### Store mutation primitives -/

/-- MERGE of a relationship: add the edge unless an identical one exists. -/
def mergeEdge (edges : List CEdge) (e : CEdge) : List CEdge :=
  if edges.contains e then edges else edges ++ [e]

/-- MERGE of a graph node by natural key followed by SET of all non-key
properties (every upsert query in queries.py SETs every non-key
property, so the merged node is replaced wholesale). -/
def upsertNode (nodes : List GNode) (new : GNode) : List GNode :=
  if nodes.any (fun n => nodeRef n == nodeRef new) then
    nodes.map (fun n => if nodeRef n == nodeRef new then new else n)
  else nodes ++ [new]

/-- MERGE (a:Agent {name: $agent_name}) SET a.model = $agent_model.
A freshly created Agent node has no messages property; coalesce treats
that as the empty list. -/
def mergeAgent (agents : List AgentNode) (name model : String) : List AgentNode :=
  if agents.any (fun a => a.name == name) then
    agents.map (fun a => if a.name == name then { a with model := model } else a)
  else agents ++ [⟨name, model, []⟩]

/-- DETACH DELETE of a set of nodes given by their keys: the nodes
disappear together with every relationship touching them. -/
def removeRefs (st : Store) (del : List NodeRef) : Store :=
  { nodes := st.nodes.filter (fun n => !(del.contains (nodeRef n))),
    agents := st.agents.filter (fun a => !(del.contains (NodeRef.agent a.name))),
    edges := st.edges.filter (fun e => !(del.contains e.src) && !(del.contains e.dst)),
    claims := st.claims.filter (fun c =>
      !(del.contains (NodeRef.agent c.agent)) && !(del.contains c.target)) }

/-- MERGE (a)-[c:CLAIM]->(n) SET c.claim_reason = $claim_reason for a
single target node. -/
def mergeClaimEdge (claims : List ClaimEdge) (agent : String) (target : NodeRef)
    (reason : String) : List ClaimEdge :=
  if claims.any (fun c => c.agent == agent && c.target == target) then
    claims.map (fun c =>
      if c.agent == agent && c.target == target then { c with reason := reason } else c)
  else claims ++ [⟨agent, target, reason⟩]

/-! ### claim_node queries -/

/-- One row of CHECK_EXISTING_CLAIM. -/
structure ClaimRow where
  agent_name : String
  agent_model : String
  claim_reason : String
deriving DecidableEq

/-- CHECK_EXISTING_CLAIM: MATCH (a:Agent)-[c:CLAIM]->(n) WHERE <target>
RETURN a.name, a.model, c.claim_reason.  A relationship can only be
matched when both endpoints exist. -/
def matchingClaims (st : Store) (node_path cb : String) : List ClaimRow :=
  st.claims.filterMap (fun c =>
    match st.agents.find? (fun a => a.name == c.agent) with
    | none => none
    | some a =>
      if st.nodes.any (fun n => nodeRef n == c.target)
          && refMatchesClaimTarget c.target node_path cb then
        some ⟨c.agent, a.model, c.reason⟩
      else none)

/-- CHECK_NODE_EXISTS, reduced to the information server.py uses (is the
result record None or not). -/
def checkNodeExists (st : Store) (node_path cb : String) : Option GNode :=
  st.nodes.find? (fun n => claimTargets n node_path cb)

/-- CREATE_CLAIM: MERGE the Agent node, MATCH every node satisfying the
target WHERE clause, and MERGE a CLAIM edge onto each.  Returns the
first result row (None when no node matched — then the transaction still
merged the Agent node). -/
def createClaim (st : Store) (agent_name agent_model node_path cb reason : String) :
    Option GNode × Store :=
  let st1 : Store := { st with agents := mergeAgent st.agents agent_name agent_model }
  match st.nodes.filter (fun n => claimTargets n node_path cb) with
  | [] => (none, st1)
  | n :: rest =>
    let claims1 := (n :: rest).foldl
      (fun cl m => mergeClaimEdge cl agent_name (nodeRef m) reason) st.claims
    (some n, { st1 with claims := claims1 })

/-! ### release_node queries -/

/-- The match predicate of RELEASE_CLAIM for one CLAIM relationship:
the edge belongs to the named agent, both endpoints exist, and the
target satisfies the claim-target WHERE clause. -/
def releaseMatch (st : Store) (agent_name node_path cb : String) (c : ClaimEdge) : Bool :=
  c.agent == agent_name
    && st.agents.any (fun a => a.name == agent_name)
    && st.nodes.any (fun n => nodeRef n == c.target)
    && refMatchesClaimTarget c.target node_path cb

/-- RELEASE_CLAIM: DELETE every matched CLAIM edge; the result record is
None exactly when nothing matched. -/
def releaseClaim (st : Store) (agent_name node_path cb : String) :
    Option Unit × Store :=
  if st.claims.any (releaseMatch st agent_name node_path cb) then
    (some (),
     { st with claims := st.claims.filter (fun c => !(releaseMatch st agent_name node_path cb c)) })
  else (none, st)

/-- COUNT_AGENT_CLAIMS: MATCH (a:Agent {name})-[c:CLAIM]->() RETURN count(c). -/
def countAgentClaims (st : Store) (agent_name : String) : Nat :=
  (st.claims.filter (fun c =>
    c.agent == agent_name
      && st.agents.any (fun a => a.name == agent_name)
      && refExists st c.target)).length

/-- DELETE_AGENT: MATCH (a:Agent {name}) DETACH DELETE a. -/
def deleteAgent (st : Store) (agent_name : String) : Store :=
  removeRefs st [NodeRef.agent agent_name]

/-! ### server.py: brocode_claim_node -/

/-- Result of brocode_claim_node, keeping the payload fields the tool
puts in the response dict. -/
inductive ClaimOutcome where
  | claimed (node_path agent_name : String)
  | alreadyYours (node_path : String)
  | conflict (claimed_by claim_reason : String)
  | errorOut (message : String)
deriving DecidableEq

/-- The part of brocode_claim_node after the check_existing_claim round
trip: the for-loop over the observed claims, and the create_claim round
trip.  Factored out because the two database calls are two separate
transactions in the code (the check result can be stale by the time the
create runs). -/
def claimAfterCheck (st : Store) (agent_name agent_model node_path cb reason : String)
    (observed : List ClaimRow) : ClaimOutcome × Store :=
  match observed with
  | row :: _ =>
    if row.agent_name == agent_name then (.alreadyYours node_path, st)
    else (.conflict row.agent_name row.claim_reason, st)
  | [] =>
    match createClaim st agent_name agent_model node_path cb reason with
    | (none, st1) => (.errorOut "Failed to create claim (unexpected).", st1)
    | (some _, st1) => (.claimed node_path agent_name, st1)

/-- brocode_claim_node (server.py lines 423-507). -/
def claimNode (st : Store) (agent_name agent_model node_path cb reason : String) :
    ClaimOutcome × Store :=
  if pyBlank reason then
    (.errorOut "claim_reason is required.", st)
  else
    match checkNodeExists st node_path cb with
    | none => (.errorOut "Node not found in codebase.", st)
    | some _ =>
      claimAfterCheck st agent_name agent_model node_path cb reason
        (matchingClaims st node_path cb)

/-! ### server.py: brocode_release_node -/

/-- Result of brocode_release_node. -/
inductive ReleaseOutcome where
  | released (node_path agent_name : String)
  | notFound (message : String)
deriving DecidableEq

/-- brocode_release_node (server.py lines 524-573): release the claim,
then delete the Agent node when its remaining claim count is zero. -/
def releaseNode (st : Store) (agent_name node_path cb : String) :
    ReleaseOutcome × Store :=
  match releaseClaim st agent_name node_path cb with
  | (none, st1) => (.notFound "No claim was found.", st1)
  | (some _, st1) =>
    let st2 := if countAgentClaims st1 agent_name == 0 then deleteAgent st1 agent_name else st1
    (.released node_path agent_name, st2)

/-! ### Messaging queries (queries.py) and tools (server.py) -/

/-- CHECK_AGENT_EXISTS / the agent lookup used by every messaging query. -/
def findAgent (st : Store) (agent_name : String) : Option AgentNode :=
  st.agents.find? (fun a => a.name == agent_name)

/-- SEND_MESSAGE: MATCH (a:Agent {name: $to_agent})
SET a.messages = coalesce(a.messages, []) + [$message]
RETURN size(a.messages).  The result is None when the agent is absent. -/
def dbSendMessage (st : Store) (to_agent : String) (entry : StoredEntry) :
    Option Nat × Store :=
  match findAgent st to_agent with
  | none => (none, st)
  | some a =>
    (some (a.messages ++ [entry]).length,
     { st with agents := st.agents.map (fun x =>
        if x.name == to_agent then { x with messages := x.messages ++ [entry] } else x) })

/-- GET_MESSAGES: returns coalesce(a.messages, []); the client returns []
when no record came back (agent absent). -/
def dbGetMessages (st : Store) (agent_name : String) : List StoredEntry :=
  match findAgent st agent_name with
  | some a => a.messages
  | none => []

/-- CLEAR_MESSAGES: MATCH (a:Agent {name}) SET a.messages = []. -/
def dbClearMessages (st : Store) (agent_name : String) : Store :=
  { st with agents := st.agents.map (fun x =>
      if x.name == agent_name then { x with messages := [] } else x) }

/-- Result of brocode_send_message. -/
inductive SendOutcome where
  | sent (to_agent : String) (message_count : Nat)
  | errorOut (message : String)
deriving DecidableEq

/-- The delivery step of brocode_send_message: run SEND_MESSAGE and map
its result record to the response dict. -/
def sendDeliver (st : Store) (to_agent : String) (entry : StoredEntry) :
    SendOutcome × Store :=
  match dbSendMessage st to_agent entry with
  | (none, st1) => (.errorOut "Failed to deliver message (unexpected).", st1)
  | (some n, st1) => (.sent to_agent n, st1)

/-- brocode_send_message (server.py lines 924-993).  The timestamp the
tool reads from the wall clock is passed in as an argument. -/
def sendMessage (st : Store) (from_agent to_agent content node_path timestamp : String) :
    SendOutcome × Store :=
  if from_agent == to_agent then
    (.errorOut "Cannot send a message to yourself.", st)
  else if pyBlank content then
    (.errorOut "Message content is required and cannot be empty.", st)
  else
    match findAgent st to_agent with
    | none => (.errorOut "Agent not found.", st)
    | some _ =>
      sendDeliver st to_agent (StoredEntry.ok ⟨from_agent, content, node_path, timestamp⟩)

/-- json.loads of one stored entry, with the fallback record used for
malformed entries (from = unknown, content = the raw string). -/
def parseEntry : StoredEntry → Msg
  | .ok m => m
  | .malformed raw => ⟨"unknown", raw, "", ""⟩

/-- Result of brocode_get_messages. -/
structure MessagesResult where
  status : String
  messages : List Msg
  count : Nat
deriving DecidableEq

/-- brocode_get_messages (server.py lines 1010-1046). -/
def getMessages (st : Store) (agent_name : String) : MessagesResult :=
  let msgs := (dbGetMessages st agent_name).map parseEntry
  ⟨"ok", msgs, msgs.length⟩

/-- brocode_clear_messages (server.py lines 1063-1083). -/
def clearMessages (st : Store) (agent_name : String) : Store :=
  dbClearMessages st agent_name

/-! ### get_active_agents -/

/-- The primary node type server.py extracts from labels(n). -/
def refPrimaryType : NodeRef → String
  | .codebase _ => "Codebase"
  | .directory _ _ => "Directory"
  | .file _ _ => "File"
  | .cls _ _ _ => "Class"
  | .func _ _ _ => "Function"
  | .agent _ => "Unknown"

/-- The codebase scope test of GET_ACTIVE_AGENTS_BY_CODEBASE:
`(n:Codebase AND n.name = $codebase) OR ((n:File OR n:Directory) AND
n.codebase = $codebase)`. -/
def refInCodebase : NodeRef → String → Bool
  | .codebase nm, cb => nm == cb
  | .directory _ pcb, cb => pcb == cb
  | .file _ pcb, cb => pcb == cb
  | _, _ => false

/-- One row of GET_ACTIVE_AGENTS_ALL / GET_ACTIVE_AGENTS_BY_CODEBASE. -/
structure AgentRow where
  agent_name : String
  agent_model : String
  node_labels_type : String
  node_path : String
  claim_reason : String
deriving DecidableEq

/-- The node_path column: coalesce(n.path, n.name) over the key fields. -/
def refPathColumn : NodeRef → String
  | .codebase nm => nm
  | .directory p _ => p
  | .file p _ => p
  | .cls _ nm _ => nm
  | .func _ nm _ => nm
  | .agent nm => nm

/-- The optional codebase scope of GET_ACTIVE_AGENTS (no filter when the
caller passed no codebase). -/
def cbScope (cb : Option String) (t : NodeRef) : Bool :=
  match cb with
  | none => true
  | some s => refInCodebase t s

/-- GET_ACTIVE_AGENTS rows: every CLAIM relationship whose endpoints
exist, optionally scoped to one codebase.  (The ORDER BY of the query
only fixes the row order; the theorems below are about membership.) -/
def activeAgentRows (st : Store) (cb : Option String) : List AgentRow :=
  st.claims.filterMap (fun c =>
    match findAgent st c.agent with
    | none => none
    | some a =>
      if st.nodes.any (fun n => nodeRef n == c.target) && cbScope cb c.target then
        some ⟨c.agent, a.model, refPrimaryType c.target, refPathColumn c.target, c.reason⟩
      else none)

/-- One entry of the grouped response of brocode_get_active_agents. -/
structure GroupedAgent where
  agent_name : String
  agent_model : String
  claims : List (String × String × String)
deriving DecidableEq

/-- One iteration of the grouping loop of brocode_get_active_agents:
append the claim of a row to its agent entry, creating the entry on
first appearance. -/
def groupStep (acc : List GroupedAgent) (r : AgentRow) : List GroupedAgent :=
  if acc.any (fun g => g.agent_name == r.agent_name) then
    acc.map (fun g =>
      if g.agent_name == r.agent_name then
        { g with claims := g.claims ++ [(r.node_path, r.node_labels_type, r.claim_reason)] }
      else g)
  else acc ++ [⟨r.agent_name, r.agent_model,
    [(r.node_path, r.node_labels_type, r.claim_reason)]⟩]

/-- The grouping loop of brocode_get_active_agents (server.py lines
797-819): rows are grouped by agent name in first-appearance order. -/
def groupAgents (rows : List AgentRow) : List GroupedAgent :=
  rows.foldl groupStep []

/-- brocode_get_active_agents (server.py lines 777-825); an empty
codebase_name means no scope filter. -/
def getActiveAgents (st : Store) (codebase_name : String) : List GroupedAgent :=
  groupAgents (activeAgentRows st (if codebase_name == "" then none else some codebase_name))

/-! ### Graph upserts (queries.py UPSERT_*) -/

/-- MERGE of a node into the store (store-level form of upsertNode). -/
def storeUpsertNode (st : Store) (g : GNode) : Store :=
  { st with nodes := upsertNode st.nodes g }

/-- MERGE of a containment edge between two existing nodes: the edge is
added only when the source node exists (the inner MATCH of the edge
subqueries in the upsert Cypher), modelling the conditional CALL blocks. -/
def linkIfSrcExists (st : Store) (src : NodeRef) (rel : RelType) (dst : NodeRef) : Store :=
  if st.nodes.any (fun n => nodeRef n == src) then
    { st with edges := mergeEdge st.edges ⟨src, rel, dst⟩ }
  else st

/-- UPSERT_FILE: MERGE the File node, SET its scalar fields, then link it
to the parent Directory when parent_path is non-empty (if that directory
exists), otherwise to the Codebase node (if it exists). -/
def upsertFile (st : Store) (cb path name extension : String) (size_bytes : Int)
    (parent_path : String) : Store :=
  let st1 := storeUpsertNode st (GNode.file path cb name extension size_bytes)
  let fref := NodeRef.file path cb
  if parent_path != "" then
    linkIfSrcExists st1 (NodeRef.directory parent_path cb) .containsFile fref
  else
    linkIfSrcExists st1 (NodeRef.codebase cb) .containsFile fref

/-- UPSERT_DIRECTORY, analogous to UPSERT_FILE with CONTAINS_DIR edges. -/
def upsertDirectory (st : Store) (cb path name : String) (depth : Int)
    (parent_path : String) : Store :=
  let st1 := storeUpsertNode st (GNode.directory path cb name depth)
  let dref := NodeRef.directory path cb
  if parent_path != "" then
    linkIfSrcExists st1 (NodeRef.directory parent_path cb) .containsDir dref
  else
    linkIfSrcExists st1 (NodeRef.codebase cb) .containsDir dref

/-- UPSERT_FUNCTION: MERGE the Function node, SET its fields, add a
DEFINES_FUNCTION edge from the containing File when it exists, and a
HAS_METHOD edge from the owner Class when owner_class is set and that
class exists. -/
def upsertFunction (st : Store) (cb file_path name : String) (line_number : Int)
    (is_method : Bool) (parameters owner_class : String) : Store :=
  let st1 := storeUpsertNode st
    (GNode.func file_path name cb line_number is_method parameters owner_class)
  let fref := NodeRef.func file_path name cb
  let st2 := linkIfSrcExists st1 (NodeRef.file file_path cb) .definesFunction fref
  if owner_class != "" then
    linkIfSrcExists st2 (NodeRef.cls file_path owner_class cb) .hasMethod fref
  else st2

/-- UPSERT_CLASS: MERGE the Class node, SET its fields, add a
DEFINES_CLASS edge from the containing File when it exists. -/
def upsertClass (st : Store) (cb file_path name : String) (line_number : Int)
    (base_classes : String) : Store :=
  let st1 := storeUpsertNode st (GNode.cls file_path name cb line_number base_classes)
  linkIfSrcExists st1 (NodeRef.file file_path cb) .definesClass
    (NodeRef.cls file_path name cb)

/-! ### Cascading deletes (queries.py DELETE_*)

DELETE_FILE and DELETE_DIRECTORY delete every node reachable from the
matched node over outgoing relationships of any type (`(d)-[*]->`)
and then the node itself.  The relationship set of the store is the
containment edges plus the CLAIM edges (which always leave an Agent
node), so the traversal is computed over both. -/

/-- Whether a reference names an Agent node.  CLAIM edges always leave
an Agent node, and the schema never points a containment edge at one, so
the `(d)-[*]->` traversal of the delete queries can only follow
containment edges. -/
def isAgentRef : NodeRef → Bool
  | .agent _ => true
  | _ => false

/-- Every relationship of the store as a directed (src, dst) pair. -/
def allEdgePairs (st : Store) : List (NodeRef × NodeRef) :=
  st.edges.map (fun e => (e.src, e.dst))
    ++ st.claims.map (fun c => (NodeRef.agent c.agent, c.target))

/-- Destinations of edges leaving the set s. -/
def succsOf (es : List (NodeRef × NodeRef)) (s : List NodeRef) : List NodeRef :=
  (es.filter (fun e => s.contains e.1)).map (fun e => e.2)

/-- One expansion step of the reachable set. -/
def stepClose (es : List (NodeRef × NodeRef)) (s : List NodeRef) : List NodeRef :=
  (s ++ succsOf es s).dedup

/-- Fuelled fixed-point iteration of stepClose; stops as soon as a step
adds nothing. -/
def closeFuel (es : List (NodeRef × NodeRef)) : Nat → List NodeRef → List NodeRef
  | 0, s => s
  | fuel + 1, s =>
    let s1 := stepClose es s
    if s1.length ≤ s.length then s1 else closeFuel es fuel s1

/-- The set of nodes reachable from start (start included), i.e. the
matched node together with every `(start)-[*]->(descendant)`. -/
def reachClosure (es : List (NodeRef × NodeRef)) (start : NodeRef) : List NodeRef :=
  closeFuel es (es.length + 1) [start]

/-- DELETE_FILE: when a File with the key exists, DETACH DELETE it and
everything reachable from it; otherwise the MATCH fails and nothing
happens. -/
def deleteFile (st : Store) (path cb : String) : Store :=
  if st.nodes.any (fun n => nodeRef n == NodeRef.file path cb) then
    removeRefs st (reachClosure (allEdgePairs st) (NodeRef.file path cb))
  else st

/-- DELETE_DIRECTORY: when a Directory with the key exists, DETACH DELETE
it and everything reachable from it. -/
def deleteDirectory (st : Store) (path cb : String) : Store :=
  if st.nodes.any (fun n => nodeRef n == NodeRef.directory path cb) then
    removeRefs st (reachClosure (allEdgePairs st) (NodeRef.directory path cb))
  else st

/-- DELETE_FUNCTION: DETACH DELETE the single matched Function node. -/
def deleteFunction (st : Store) (file_path name cb : String) : Store :=
  if st.nodes.any (fun n => nodeRef n == NodeRef.func file_path name cb) then
    removeRefs st [NodeRef.func file_path name cb]
  else st

/-- Whether a node is a Function of the given file and codebase whose
owner_class property equals the given class name (the property match of
DELETE_CLASS, which is not a key lookup). -/
def isMethodOfClass (n : GNode) (file_path clsName cb : String) : Bool :=
  match n with
  | .func fp _ fcb _ _ _ oc => fp == file_path && fcb == cb && oc == clsName
  | _ => false

/-- DELETE_CLASS: when a Class with the key exists, DETACH DELETE every
Function node with the same file_path and codebase whose owner_class
equals the class name, and then the Class node itself; when the Class is
absent the MATCH fails and nothing is deleted. -/
def deleteClass (st : Store) (file_path name cb : String) : Store :=
  if st.nodes.any (fun n => nodeRef n == NodeRef.cls file_path name cb) then
    removeRefs st
      ((st.nodes.filter (fun n =>
          nodeRef n == NodeRef.cls file_path name cb
            || isMethodOfClass n file_path name cb)).map nodeRef)
  else st

/-! ### server.py: brocode_update_graph -/

/-- A change dict passed to brocode_update_graph.  Absent keys and empty
strings behave identically under the Python truthiness checks the code
performs, so optional string fields default to "" and the numeric /
boolean fields carry the dict.get defaults used by _dispatch_change. -/
structure Change where
  action : String := ""
  node_type : String := ""
  path : String := ""
  file_path : String := ""
  function_name : String := ""
  class_name : String := ""
  name : String := ""
  extension : String := ""
  size_bytes : Int := 0
  depth : Int := 0
  parent_path : String := ""
  line_number : Int := 0
  is_method : Bool := false
  parameters : String := ""
  base_classes : String := ""
  owner_class : String := ""
deriving DecidableEq

/-- The _REQUIRED_FIELDS table, as field names. -/
def requiredFields (action node_type : String) : List String :=
  if action == "upsert" || action == "delete" then
    if node_type == "File" || node_type == "Directory" then ["path"]
    else if node_type == "Function" then ["file_path", "function_name"]
    else if node_type == "Class" then ["file_path", "class_name"]
    else []
  else []

/-- Field access by name for the required-field check. -/
def getField (c : Change) : String → String
  | "path" => c.path
  | "file_path" => c.file_path
  | "function_name" => c.function_name
  | "class_name" => c.class_name
  | _ => ""

/-- The first missing required field, if any. -/
def firstMissing (c : Change) : List String → Option String
  | [] => none
  | f :: rest => if getField c f == "" then some f else firstMissing c rest

/-- _apply_single_change (server.py lines 668-694): validation of one
change dict; the ValueError messages become the error strings of the
batch result (quotes of the Python messages are dropped). -/
def validateChange (c : Change) (i : Nat) : Except String Unit :=
  if c.action == "" then
    .error ("Change " ++ toString i ++ ": missing required field action.")
  else if !(c.action == "upsert" || c.action == "delete") then
    .error ("Change " ++ toString i ++ ": invalid action " ++ c.action ++ ".")
  else if c.node_type == "" then
    .error ("Change " ++ toString i ++ ": missing required field node_type.")
  else if !(c.node_type == "File" || c.node_type == "Directory"
      || c.node_type == "Function" || c.node_type == "Class") then
    .error ("Change " ++ toString i ++ ": invalid node_type " ++ c.node_type ++ ".")
  else
    match firstMissing c (requiredFields c.action c.node_type) with
    | some f =>
      .error ("Change " ++ toString i ++ ": missing required field " ++ f
        ++ " for " ++ c.action ++ " " ++ c.node_type ++ ".")
    | none => .ok ()

/-- Structural split of a character list at a separator (String.splitOn
does not reduce in the kernel, so the split is done on the character
list). -/
def splitOnChar (sep : Char) : List Char → List (List Char)
  | [] => [[]]
  | c :: rest =>
    match splitOnChar sep rest with
    | [] => [[]]
    | g :: gs => if c == sep then [] :: g :: gs else (c :: g) :: gs

/-- os.path.basename for forward-slash paths. -/
def basename (p : String) : String :=
  String.mk (((splitOnChar '/' p.toList).reverse.head?).getD [])

/-- os.path.splitext(p)[1]: the extension starts at the last dot of the
basename that does not belong to its leading run of dots. -/
def extOf (p : String) : String :=
  let cs := (basename p).toList
  let rest := cs.drop (cs.takeWhile (fun ch => ch == '.')).length
  if rest.contains '.' then
    String.mk ('.' :: (rest.reverse.takeWhile (fun ch => ch != '.')).reverse)
  else ""

/-- _dispatch_change (server.py lines 697-760): route a validated change
to the matching store operation, filling the defaulted fields the way
the Python code does. -/
def dispatchChange (st : Store) (cb : String) (c : Change) : Store :=
  if c.action == "upsert" then
    if c.node_type == "File" then
      upsertFile st cb c.path
        (if c.name == "" then basename c.path else c.name)
        (if c.extension == "" then extOf c.path else c.extension)
        c.size_bytes c.parent_path
    else if c.node_type == "Directory" then
      upsertDirectory st cb c.path
        (if c.name == "" then basename c.path else c.name)
        c.depth c.parent_path
    else if c.node_type == "Function" then
      upsertFunction st cb c.file_path c.function_name c.line_number c.is_method
        c.parameters c.owner_class
    else if c.node_type == "Class" then
      upsertClass st cb c.file_path c.class_name c.line_number c.base_classes
    else st
  else if c.action == "delete" then
    if c.node_type == "File" then deleteFile st c.path cb
    else if c.node_type == "Directory" then deleteDirectory st c.path cb
    else if c.node_type == "Function" then deleteFunction st c.file_path c.function_name cb
    else if c.node_type == "Class" then deleteClass st c.file_path c.class_name cb
    else st
  else st

/-- The per-item loop of brocode_update_graph: each change is validated,
then dispatched; a validation failure appends one error string and skips
only that change.  Returns (applied, errors, final store). -/
def processChanges (cb : String) : List Change → Nat → Store → Nat × List String × Store
  | [], _, st => (0, [], st)
  | c :: rest, i, st =>
    match validateChange c i with
    | .error e =>
      let r : Nat × List String × Store := processChanges cb rest (i + 1) st
      (r.1, e :: r.2.1, r.2.2)
    | .ok _ =>
      let st1 := dispatchChange st cb c
      let r : Nat × List String × Store := processChanges cb rest (i + 1) st1
      (r.1 + 1, r.2.1, r.2.2)

/-- Result of brocode_update_graph: either the top-level validation error
dict, or the batch result {status, applied, errors}. -/
inductive UGResult where
  | errorMsg (message : String)
  | batch (status : String) (applied : Nat) (errors : List String)
deriving DecidableEq

/-- brocode_update_graph (server.py lines 607-665). -/
def updateGraph (st : Store) (codebase_name : String) (changes : List Change) :
    UGResult × Store :=
  if pyBlank codebase_name then
    (.errorMsg "codebase_name is required.", st)
  else if changes.isEmpty then
    (.errorMsg "changes list is required and cannot be empty.", st)
  else
    let r := processChanges codebase_name changes 0 st
    let status := if r.2.1.isEmpty then "ok" else if r.1 > 0 then "partial" else "error"
    (.batch status r.1 r.2.1, r.2.2)

/-! ### neo4j_client.query_codebase -/

/-- The label of a node, as matched by the {type_clause}. -/
def nodeLabel (n : GNode) : String := refPrimaryType (nodeRef n)

/-- The n.name property. -/
def nodeName : GNode → String
  | .codebase nm _ => nm
  | .directory _ _ nm _ => nm
  | .file _ _ nm _ _ => nm
  | .cls _ nm _ _ _ => nm
  | .func _ nm _ _ _ _ _ => nm

/-- The n.path property (null on Codebase, Class and Function nodes). -/
def nodePathProp : GNode → Option String
  | .directory p _ _ _ => some p
  | .file p _ _ _ _ => some p
  | _ => none

/-- The n.codebase property (null on Codebase nodes). -/
def nodeCodebaseProp : GNode → Option String
  | .codebase _ _ => none
  | .directory _ cb _ _ => some cb
  | .file _ cb _ _ _ => some cb
  | .cls _ _ cb _ _ => some cb
  | .func _ _ cb _ _ _ _ => some cb

/-- One row of QUERY_CODEBASE_TEMPLATE. -/
structure QRow where
  node_labels_type : String
  node_path : String
  node_name : String
  claimed_by : Option String
  claim_reason : Option String
deriving DecidableEq

/-- The WHERE clause of QUERY_CODEBASE_TEMPLATE: for node_type Codebase
it is `n.name = $codebase`, otherwise
`((n:Codebase AND n.name = $codebase) OR (n.codebase = $codebase))`. -/
def queryWhere (node_type : Option String) (cb : String) (n : GNode) : Bool :=
  if node_type == some "Codebase" then nodeName n == cb
  else (nodeLabel n == "Codebase" && nodeName n == cb)
    || (nodeCodebaseProp n == some cb)

/-- Build the result row for one node, with the OPTIONAL MATCH of its
claimant (first CLAIM edge whose agent exists; under the at-most-one
invariant there is at most one). -/
def rowOfNode (st : Store) (n : GNode) : QRow :=
  match st.claims.find? (fun c =>
      c.target == nodeRef n && st.agents.any (fun a => a.name == c.agent)) with
  | some c => ⟨nodeLabel n, (nodePathProp n).getD (nodeName n), nodeName n,
      some c.agent, some c.reason⟩
  | none => ⟨nodeLabel n, (nodePathProp n).getD (nodeName n), nodeName n, none, none⟩

/-- Lexicographic string order on character lists (a kernel-reducible
stand-in for the store's ORDER BY string collation). -/
def charListLe : List Char → List Char → Bool
  | [], _ => true
  | _ :: _, [] => false
  | a :: as, b :: bs => if a == b then charListLe as bs else decide (a < b)

/-- ORDER BY node_path comparison on rows. -/
def rowLe (r1 r2 : QRow) : Bool :=
  charListLe r1.node_path.toList r2.node_path.toList

/-- Stable insertion into a sorted row list. -/
def insertSorted (r : QRow) : List QRow → List QRow
  | [] => [r]
  | x :: xs => if rowLe r x then r :: x :: xs else x :: insertSorted r xs

/-- Insertion sort implementing the ORDER BY of the query. -/
def sortRows (l : List QRow) : List QRow :=
  l.foldr insertSorted []

/-- The rows the Cypher query produces before LIMIT: matching nodes,
annotated with their claimant, ORDER BY node_path. -/
def queryRows (st : Store) (node_type : Option String) (cb : String) : List QRow :=
  sortRows ((st.nodes.filter (fun n =>
      (match node_type with
       | none => true
       | some t => nodeLabel n == t)
        && queryWhere node_type cb n)).map (rowOfNode st))

/-- Neo4jClient.query_codebase (neo4j_client.py lines 334-389): validate
node_type, over-fetch 5x the limit when a path filter will be applied,
glob-filter client-side with fnmatch, truncate to the limit.  fnmatch is
library code external to the repository, so the glob matcher is a
parameter. -/
def queryCodebaseFetch (fnmatchFn : String → String → Bool) (st : Store) (cb : String)
    (path_filter : Option String) (node_type : Option String) (limit : Nat) :
    List QRow :=
  let fetchLimit : Nat := match path_filter with
    | some _ => limit * 5
    | none => limit
  let records : List QRow := (queryRows st node_type cb).take fetchLimit
  let filtered : List QRow := match path_filter with
    | some pf => records.filter (fun r => fnmatchFn r.node_path pf)
    | none => records
  filtered.take limit

/-- Wrapper adding the node_type allowlist check of query_codebase (a
ValueError in the Python code, hence the Except). -/
def queryCodebase (fnmatchFn : String → String → Bool) (st : Store) (cb : String)
    (path_filter : Option String) (node_type : Option String) (limit : Nat) :
    Except String (List QRow) :=
  match node_type with
  | some t =>
    if !(t == "File" || t == "Directory" || t == "Codebase" || t == "Class"
        || t == "Function") then
      .error ("Invalid node_type " ++ t ++ ".")
    else .ok (queryCodebaseFetch fnmatchFn st cb path_filter node_type limit)
  | none => .ok (queryCodebaseFetch fnmatchFn st cb path_filter node_type limit)

/-! ### Sequential operational model -/

/-- One tool invocation, for sequences of operations executed one at a
time (brocode_get_messages and the read-only query tools perform no
store writes, so getMsgs keeps the store unchanged). -/
inductive Op where
  | claimOp (agent_name agent_model node_path cb reason : String)
  | releaseOp (agent_name node_path cb : String)
  | updateOp (cb : String) (changes : List Change)
  | sendOp (from_agent to_agent content node_path timestamp : String)
  | getMsgsOp (agent_name : String)
  | clearMsgsOp (agent_name : String)

/-- The store effect of one operation. -/
def applyOp (st : Store) : Op → Store
  | .claimOp a m p cb r => (claimNode st a m p cb r).2
  | .releaseOp a p cb => (releaseNode st a p cb).2
  | .updateOp cb chs => (updateGraph st cb chs).2
  | .sendOp f t c p ts => (sendMessage st f t c p ts).2
  | .getMsgsOp _ => st
  | .clearMsgsOp a => clearMessages st a

/-- Whether an operation is a claim call. -/
def Op.isClaim : Op → Bool
  | .claimOp _ _ _ _ _ => true
  | _ => false

/-! ### Store wellformedness and the claim invariant -/

/-- Number of CLAIM edges carried by the node with key r. -/
def claimCount (st : Store) (r : NodeRef) : Nat :=
  (st.claims.filter (fun c => c.target == r)).length

/-- The protocol invariant: at most one CLAIM edge per node. -/
def ClaimInv (st : Store) : Prop :=
  ∀ r : NodeRef, claimCount st r ≤ 1

/-- MERGE discipline: at most one node per natural key (Neo4j MERGE never
duplicates a node for the same key). -/
def nodesNodup (st : Store) : Prop :=
  (st.nodes.map nodeRef).Nodup

/-- Neo4j relationships cannot dangle: both endpoints of every CLAIM
edge exist. -/
def claimEndpointsOk (st : Store) : Prop :=
  ∀ c ∈ st.claims,
    st.agents.any (fun a => a.name == c.agent) = true ∧
    st.nodes.any (fun n => nodeRef n == c.target) = true

/-- A well-formed store. -/
def WF (st : Store) : Prop :=
  nodesNodup st ∧ claimEndpointsOk st ∧ ClaimInv st

/-! ### Derived composites used to state the claims -/

/-- A sequence of brocode_send_message calls to one recipient, one at a
time (store effect only). -/
def sendMany (st : Store) (to_agent : String) (ms : List Msg) : Store :=
  ms.foldl (fun s m => (sendMessage s m.sender to_agent m.content m.node_path m.timestamp).2) st

/-- The VALID_NODE_TYPES allowlist test on the optional node_type
argument of query_codebase. -/
def validNTopt : Option String → Bool
  | none => true
  | some t => t == "File" || t == "Directory" || t == "Codebase" || t == "Class"
      || t == "Function"

/-- Whether one change dict passes _apply_single_change (the outcome is
independent of the reported index). -/
def isValidChange (c : Change) : Bool :=
  match validateChange c 0 with
  | .ok _ => true
  | .error _ => false

/-- The number of CLAIM edges a claim edge list gives to target r. -/
def countTarget (cl : List ClaimEdge) (r : NodeRef) : Nat :=
  cl.countP (fun c => c.target == r)

/-- The claim list CREATE_CLAIM leaves behind: one MERGEd CLAIM edge per
node matching the claim-target clause. -/
def createdClaims (st : Store) (a p cb r : String) : List ClaimEdge :=
  (st.nodes.filter (fun n => claimTargets n p cb)).foldl
    (fun cl n2 => mergeClaimEdge cl a (nodeRef n2) r) st.claims

/-! ### Concrete stores for the witness theorems -/

/-- A two-node store (one codebase, one file) with no agents or claims. -/
def baseStore : Store :=
  { nodes := [GNode.codebase "repo" "/r", GNode.file "src/x.py" "repo" "x.py" ".py" 10],
    edges := [⟨.codebase "repo", .containsFile, .file "src/x.py" "repo"⟩],
    agents := [], claims := [] }

/-- baseStore after agent A claimed the file. -/
def claimedStore : Store :=
  (claimNode baseStore "A" "claude" "src/x.py" "repo" "fix bug").2

/-- A store whose only agent B has an empty mailbox. -/
def mailStore : Store :=
  { baseStore with agents := [⟨"B", "gemini", []⟩] }

/-- A directory tree with a sibling file, for the cascade witness. -/
def treeStore : Store :=
  { nodes := [GNode.codebase "repo" "/r",
      GNode.directory "src" "repo" "src" 1,
      GNode.directory "src/sub" "repo" "sub" 2,
      GNode.file "src/sub/a.py" "repo" "a.py" ".py" 1,
      GNode.file "other.py" "repo" "other.py" ".py" 1],
    edges := [⟨.codebase "repo", .containsDir, .directory "src" "repo"⟩,
      ⟨.directory "src" "repo", .containsDir, .directory "src/sub" "repo"⟩,
      ⟨.directory "src/sub" "repo", .containsFile, .file "src/sub/a.py" "repo"⟩,
      ⟨.codebase "repo", .containsFile, .file "other.py" "repo"⟩],
    agents := [], claims := [] }

/-- A file with a class, one method of that class, and one free function,
for the class-delete witness. -/
def classStore : Store :=
  { nodes := [GNode.file "a.py" "repo" "a.py" ".py" 1,
      GNode.cls "a.py" "C" "repo" 1 "",
      GNode.func "a.py" "m" "repo" 2 true "self" "C",
      GNode.func "a.py" "free" "repo" 9 false "" ""],
    edges := [], agents := [], claims := [] }

/-- Two messages for the mailbox witness. -/
def msgsW : List Msg :=
  [⟨"A", "hello", "src/x.py", "t1"⟩, ⟨"C", "ping", "", "t2"⟩]

/-- A valid upsert change, an invalid change (missing path), and a second
valid change, for the batch witness. -/
def vc1W : Change := { action := "upsert", node_type := "File", path := "src/a.py" }

/-- The invalid middle change of the batch witness. -/
def icW : Change := { action := "upsert", node_type := "File" }

/-- The second valid change of the batch witness. -/
def vc2W : Change := { action := "upsert", node_type := "Directory", path := "src" }

/-! ## Claim C10 -/

/-- C10: for an agent name with no Agent node in the store,
brocode_get_messages returns status ok with an empty messages list and
count 0 rather than a not-found error, and that result is identical to
the one for an existing agent with an empty inbox. -/
theorem get_messages_missing_agent (st st2 : Store) (agent_name : String) (a2 : AgentNode)
    (h1 : findAgent st agent_name = none)
    (h2 : findAgent st2 agent_name = some a2) (h3 : a2.messages = []) :
    getMessages st agent_name = ⟨"ok", [], 0⟩ ∧
    getMessages st agent_name = getMessages st2 agent_name := by
  constructor
  · simp [getMessages, dbGetMessages, h1]
  · simp [getMessages, dbGetMessages, h1, h2, h3]

/-- Witness for C10 at a concrete store: agent B is absent from
baseStore and present with an empty inbox in mailStore. -/
theorem get_messages_missing_agent_witness :
    getMessages baseStore "B" = ⟨"ok", [], 0⟩ ∧
    getMessages baseStore "B" = getMessages mailStore "B" :=
  get_messages_missing_agent baseStore mailStore "B" ⟨"B", "gemini", []⟩
    (by decide) (by decide) rfl

/-! ## Claim C7 -/

/-- C7: when a path filter is supplied, query_codebase asks the store
for five times the requested limit, applies the glob filter client-side
to that over-fetched page, and truncates the outcome to the limit, so
the returned list is exactly the first limit path-ordered matches of the
page and never exceeds the limit. -/
theorem query_codebase_overfetch (f : String → String → Bool) (st : Store)
    (cb pf : String) (nt : Option String) (limit : Nat)
    (hnt : validNTopt nt = true) :
    queryCodebase f st cb (some pf) nt limit
      = .ok ((((queryRows st nt cb).take (limit * 5)).filter
          (fun r => f r.node_path pf)).take limit) ∧
    ((((queryRows st nt cb).take (limit * 5)).filter
          (fun r => f r.node_path pf)).take limit).length ≤ limit := by
  constructor
  · cases nt with
    | none => simp [queryCodebase, queryCodebaseFetch]
    | some t =>
      simp only [validNTopt] at hnt
      simp [queryCodebase, queryCodebaseFetch, hnt]
  · calc ((((queryRows st nt cb).take (limit * 5)).filter
          (fun r => f r.node_path pf)).take limit).length
        = min limit (((queryRows st nt cb).take (limit * 5)).filter
            (fun r => f r.node_path pf)).length := List.length_take _ _
      _ ≤ limit := min_le_left _ _

/-- Witness for C7 at a concrete store, limit and prefix-match filter. -/
theorem query_codebase_overfetch_witness :
    validNTopt (some "File") = true ∧
    queryCodebase (fun p pat => p.startsWith pat) treeStore "repo" (some "src/")
        (some "File") 1
      = .ok ((((queryRows treeStore (some "File") "repo").take (1 * 5)).filter
          (fun r => r.node_path.startsWith "src/")).take 1) :=
  ⟨by decide,
   (query_codebase_overfetch (fun p pat => p.startsWith pat) treeStore "repo" "src/"
      (some "File") 1 (by decide)).1⟩

/-! ## Claim C3 -/

/-- C3 is violated by the implementation: brocode_claim_node performs
the read-existing-claims step and the create-claim step as two separate
transactions with no uniqueness constraint on the CLAIM edge.  In the
interleaving check(A), check(B), create(A), create(B) on one unclaimed
node, both agents observe zero claims and both calls return status
claimed, leaving two CLAIM edges on the node — not exactly one claimed
out of N concurrent attempts. -/
theorem concurrent_claim_race :
    (checkNodeExists baseStore "src/x.py" "repo").isSome = true ∧
    matchingClaims baseStore "src/x.py" "repo" = [] ∧
    (claimAfterCheck baseStore "A" "claude" "src/x.py" "repo" "fixA"
        (matchingClaims baseStore "src/x.py" "repo")).1
      = ClaimOutcome.claimed "src/x.py" "A" ∧
    (claimAfterCheck
        (claimAfterCheck baseStore "A" "claude" "src/x.py" "repo" "fixA"
          (matchingClaims baseStore "src/x.py" "repo")).2
        "B" "gemini" "src/x.py" "repo" "fixB"
        (matchingClaims baseStore "src/x.py" "repo")).1
      = ClaimOutcome.claimed "src/x.py" "B" ∧
    claimCount
      (claimAfterCheck
        (claimAfterCheck baseStore "A" "claude" "src/x.py" "repo" "fixA"
          (matchingClaims baseStore "src/x.py" "repo")).2
        "B" "gemini" "src/x.py" "repo" "fixB"
        (matchingClaims baseStore "src/x.py" "repo")).2
      (NodeRef.file "src/x.py" "repo") = 2 :=
  ⟨by decide, by decide, by decide, by decide, by decide⟩

/-! ## Claim C8 -/

/-- find? over a name-preserving conditional update of the agent list. -/
theorem findAgent_map_update (agents : List AgentNode) (tgt : String)
    (g : AgentNode → AgentNode) (hg : ∀ a, (g a).name = a.name) :
    (agents.map (fun x => if x.name == tgt then g x else x)).find? (fun a => a.name == tgt)
      = (agents.find? (fun a => a.name == tgt)).map g := by
  induction agents with
  | nil => rfl
  | cons a rest ih =>
    rw [List.map_cons, List.find?_cons, List.find?_cons]
    cases h : (a.name == tgt) with
    | true => simp [hg, h]
    | false =>
      have hred : (if false = true then g a else a) = a := rfl
      rw [hred, h]
      exact ih

/-- After SEND_MESSAGE the recipient exists with the entry appended. -/
theorem findAgent_dbSend (st : Store) (tgt : String) (e : StoredEntry) (a : AgentNode)
    (ha : findAgent st tgt = some a) :
    findAgent (dbSendMessage st tgt e).2 tgt
      = some { a with messages := a.messages ++ [e] } := by
  unfold dbSendMessage
  rw [ha]
  unfold findAgent
  rw [findAgent_map_update st.agents tgt
    (fun x => { x with messages := x.messages ++ [e] }) (fun _ => rfl)]
  have hf : st.agents.find? (fun x => x.name == tgt) = some a := ha
  rw [hf]
  rfl

/-- One successful brocode_send_message call: the structured record is
appended at the end of the inbox and the new count is returned. -/
theorem sendMessage_step (s : Store) (m : Msg) (tgt : String) (b : AgentNode)
    (hb : findAgent s tgt = some b) (hs : m.sender ≠ tgt) (hc : pyBlank m.content = false) :
    (sendMessage s m.sender tgt m.content m.node_path m.timestamp).1
        = SendOutcome.sent tgt (b.messages.length + 1) ∧
    findAgent (sendMessage s m.sender tgt m.content m.node_path m.timestamp).2 tgt
        = some { b with messages := b.messages ++ [StoredEntry.ok m] } := by
  have hne : (m.sender == tgt) = false := by simpa using hs
  have hmsg : StoredEntry.ok ⟨m.sender, m.content, m.node_path, m.timestamp⟩
      = StoredEntry.ok m := rfl
  have hsend := findAgent_dbSend s tgt (StoredEntry.ok m) b hb
  unfold sendMessage
  rw [hne, hc, hb, hmsg]
  simp only [Bool.false_eq_true, if_false]
  unfold sendDeliver
  unfold dbSendMessage at hsend ⊢
  rw [hb] at hsend ⊢
  exact ⟨by simp, hsend⟩

/-- Folding a list of valid sends appends the entries in send order. -/
theorem sendMany_inbox (tgt : String) (ms : List Msg) :
    ∀ (st : Store) (a : AgentNode), findAgent st tgt = some a →
      (∀ m ∈ ms, m.sender ≠ tgt ∧ pyBlank m.content = false) →
      findAgent (sendMany st tgt ms) tgt
        = some { a with messages := a.messages ++ ms.map StoredEntry.ok } := by
  induction ms with
  | nil =>
    intro st a ha _
    simpa [sendMany] using ha
  | cons m rest ih =>
    intro st a ha hv
    have hm := hv m (by simp)
    have hstep := (sendMessage_step st m tgt a ha hm.1 hm.2).2
    have hrest := ih _ _ hstep (fun x hx => hv x (by simp [hx]))
    simpa [sendMany, List.append_assoc] using hrest

/-- C8: each successful brocode_send_message appends its structured
record {from, content, node_path, timestamp} at the end of the
recipient's message list and returns the new count, and
brocode_get_messages returns the messages in send order (FIFO). -/
theorem mailbox_fifo_append (st : Store) (tgt : String) (ms : List Msg) (a : AgentNode)
    (ha : findAgent st tgt = some a)
    (hv : ∀ m ∈ ms, m.sender ≠ tgt ∧ pyBlank m.content = false) :
    (getMessages (sendMany st tgt ms) tgt).messages
        = (getMessages st tgt).messages ++ ms ∧
    ∀ (s : Store) (m : Msg) (b : AgentNode),
      findAgent s tgt = some b → m.sender ≠ tgt → pyBlank m.content = false →
      (sendMessage s m.sender tgt m.content m.node_path m.timestamp).1
          = SendOutcome.sent tgt (b.messages.length + 1) ∧
      dbGetMessages (sendMessage s m.sender tgt m.content m.node_path m.timestamp).2 tgt
          = b.messages ++ [StoredEntry.ok m] := by
  constructor
  · have h := sendMany_inbox tgt ms st a ha hv
    simp [getMessages, dbGetMessages, h, ha, List.map_map]
    simp [Function.comp_def, parseEntry]
  · intro s m b hb hs hc
    refine ⟨(sendMessage_step s m tgt b hb hs hc).1, ?_⟩
    have h2 := (sendMessage_step s m tgt b hb hs hc).2
    simp [dbGetMessages, h2]

/-- Witness for C8: two sends tgt agent B of mailStore arrive in order. -/
theorem mailbox_fifo_append_witness :
    ((getMessages (sendMany mailStore "B" msgsW) "B").messages
        = (getMessages mailStore "B").messages ++ msgsW ∧
      ∀ (s : Store) (m : Msg) (b : AgentNode),
        findAgent s "B" = some b → m.sender ≠ "B" → pyBlank m.content = false →
        (sendMessage s m.sender "B" m.content m.node_path m.timestamp).1
            = SendOutcome.sent "B" (b.messages.length + 1) ∧
        dbGetMessages (sendMessage s m.sender "B" m.content m.node_path m.timestamp).2 "B"
            = b.messages ++ [StoredEntry.ok m]) :=
  mailbox_fifo_append mailStore "B" msgsW ⟨"B", "gemini", []⟩ (by decide) (by decide)

/-! ## Claim C2 -/

/-- A row of CHECK_EXISTING_CLAIM comes from a CLAIM edge with existing
endpoints whose target satisfies the claim-target WHERE clause. -/
theorem matchingClaims_mem (st : Store) (p cb : String) (row : ClaimRow)
    (h : row ∈ matchingClaims st p cb) :
    ∃ c ∈ st.claims, ∃ a : AgentNode,
      st.agents.find? (fun x => x.name == c.agent) = some a ∧
      (st.nodes.any (fun n => nodeRef n == c.target)) = true ∧
      refMatchesClaimTarget c.target p cb = true ∧
      row = ⟨c.agent, a.model, c.reason⟩ := by
  unfold matchingClaims at h
  obtain ⟨c, hc, hfc⟩ := List.mem_filterMap.mp h
  cases hfind : st.agents.find? (fun a => a.name == c.agent) with
  | none => rw [hfind] at hfc; simp at hfc
  | some a =>
    rw [hfind] at hfc
    have hfc2 : (if (st.nodes.any (fun n => nodeRef n == c.target)
          && refMatchesClaimTarget c.target p cb) = true then
        some (⟨c.agent, a.model, c.reason⟩ : ClaimRow) else none) = some row := hfc
    by_cases hcond : (st.nodes.any (fun n => nodeRef n == c.target)
        && refMatchesClaimTarget c.target p cb) = true
    · refine ⟨c, hc, a, hfind, (Bool.and_eq_true_iff.mp hcond).1,
        (Bool.and_eq_true_iff.mp hcond).2, ?_⟩
      rw [if_pos hcond] at hfc2
      exact (Option.some_inj.mp hfc2).symm
    · rw [if_neg hcond] at hfc2
      simp at hfc2

/-- If some existing node satisfies the claim-target clause then
CHECK_NODE_EXISTS returns a record. -/
theorem checkNodeExists_isSome_of_claim (st : Store) (p cb : String) (t : NodeRef)
    (hn : (st.nodes.any (fun n => nodeRef n == t)) = true)
    (hm : refMatchesClaimTarget t p cb = true) :
    ∃ n0, checkNodeExists st p cb = some n0 := by
  obtain ⟨n, hmem, href⟩ := List.any_eq_true.mp hn
  have hct : claimTargets n p cb = true := by
    unfold claimTargets
    rw [show nodeRef n = t from by simpa using href]
    exact hm
  have hsome : (st.nodes.find? (fun n => claimTargets n p cb)).isSome = true :=
    List.find?_isSome.mpr ⟨n, hmem, hct⟩
  exact Option.isSome_iff_exists.mp hsome

/-- C2: a claim call on a node already claimed by agent X returns
already_yours when the caller is X and conflict carrying claimed_by = X
and the claim_reason of the existing CLAIM edge when the caller differs,
and in both cases the store is unchanged. -/
theorem claim_on_claimed_node (st : Store) (X Y model p cb reason : String) (row : ClaimRow)
    (hreason : pyBlank reason = false)
    (hm : matchingClaims st p cb = [row]) (hX : row.agent_name = X) :
    (Y = X → claimNode st Y model p cb reason = (ClaimOutcome.alreadyYours p, st)) ∧
    (Y ≠ X → claimNode st Y model p cb reason
        = (ClaimOutcome.conflict X row.claim_reason, st)) := by
  have hrow : row ∈ matchingClaims st p cb := by rw [hm]; exact List.mem_singleton.mpr rfl
  obtain ⟨c, hc, a, hfind, hnode, hrefm, hroweq⟩ := matchingClaims_mem st p cb row hrow
  obtain ⟨n0, hn0⟩ := checkNodeExists_isSome_of_claim st p cb c.target hnode hrefm
  constructor
  · intro hYX
    have hbeq : (row.agent_name == Y) = true := by rw [hX, hYX]; exact beq_self_eq_true X
    unfold claimNode
    rw [hreason, hn0, hm]
    unfold claimAfterCheck
    simp [hbeq]
  · intro hYX
    have hbeq : (X == Y) = false := beq_eq_false_iff_ne.mpr (Ne.symm hYX)
    unfold claimNode
    rw [hreason, hn0, hm]
    unfold claimAfterCheck
    simp only [hX, hbeq, Bool.false_eq_true, if_false]

/-- Witness for C2: after A claims src/x.py, a repeat claim by A is
already_yours and a claim by B is a conflict naming A; the store is
untouched both times. -/
theorem claim_on_claimed_node_witness :
    (("A" : String) = "A" →
      claimNode claimedStore "A" "claude" "src/x.py" "repo" "again"
        = (ClaimOutcome.alreadyYours "src/x.py", claimedStore)) ∧
    (("B" : String) ≠ "A" →
      claimNode claimedStore "B" "gemini" "src/x.py" "repo" "want"
        = (ClaimOutcome.conflict "A" "fix bug", claimedStore)) :=
  ⟨(claim_on_claimed_node claimedStore "A" "A" "claude" "src/x.py" "repo" "again"
      ⟨"A", "claude", "fix bug"⟩ (by decide) (by decide) rfl).1,
   (claim_on_claimed_node claimedStore "A" "B" "gemini" "src/x.py" "repo" "want"
      ⟨"A", "claude", "fix bug"⟩ (by decide) (by decide) rfl).2⟩

/-! ## Claim C5 -/

/-- The validation outcome of one change does not depend on the index
(only the error message text does). -/
theorem validateChange_ok_iff (c : Change) (i : Nat) :
    (validateChange c i = Except.ok ()) ↔ isValidChange c = true := by
  unfold isValidChange validateChange
  repeat' split
  all_goals simp_all

/-- The valid and invalid parts of a list split its length. -/
theorem filter_valid_split (l : List Change) :
    (l.filter (fun c => isValidChange c)).length
      + (l.filter (fun c => !(isValidChange c))).length = l.length := by
  induction l with
  | nil => rfl
  | cons c rest ih =>
    cases h : isValidChange c <;> simp [List.filter_cons, h] <;> omega

/-- The per-item loop applies exactly the valid changes and records one
error per invalid change, regardless of the starting index and store. -/
theorem processChanges_spec (cb : String) (l : List Change) :
    ∀ (i : Nat) (st : Store),
      (processChanges cb l i st).1 = (l.filter (fun c => isValidChange c)).length ∧
      (processChanges cb l i st).2.1.length
        = (l.filter (fun c => !(isValidChange c))).length := by
  induction l with
  | nil => intro i st; simp [processChanges]
  | cons c rest ih =>
    intro i st
    unfold processChanges
    cases hv : validateChange c i with
    | error e =>
      have hnv : isValidChange c = false := by
        by_contra hcon
        have htrue : isValidChange c = true := by simpa using hcon
        have hok := (validateChange_ok_iff c i).mpr htrue
        rw [hv] at hok
        exact Except.noConfusion hok
      have hr := ih (i + 1) st
      simp [List.filter_cons, hnv, hr.1, hr.2]
    | ok u =>
      cases u
      have hvc : isValidChange c = true := (validateChange_ok_iff c i).mp hv
      have hr := ih (i + 1) (dispatchChange st cb c)
      simp [List.filter_cons, hvc, hr.1, hr.2]

/-- The batch branch of brocode_update_graph, written out. -/
theorem updateGraph_eq (st : Store) (cb : String) (changes : List Change)
    (hcb : pyBlank cb = false) (hempty : changes.isEmpty = false) :
    updateGraph st cb changes = (UGResult.batch
      (if (processChanges cb changes 0 st).2.1.isEmpty = true then "ok"
       else if (processChanges cb changes 0 st).1 > 0 then "partial" else "error")
      (processChanges cb changes 0 st).1 (processChanges cb changes 0 st).2.1,
      (processChanges cb changes 0 st).2.2) := by
  unfold updateGraph
  rw [hcb, hempty]
  rfl

/-- C5: for a non-blank codebase name and a non-empty change list,
brocode_update_graph applies exactly the changes that validate, records
one error per invalid change without aborting the rest, and reports
status ok exactly when there are no errors, partial exactly when some
change applied and some failed, and error exactly when none applied. -/
theorem update_graph_batch_semantics (st : Store) (cb : String) (changes : List Change)
    (hcb : pyBlank cb = false) (hne : changes ≠ []) :
    ∃ status errors st2,
      updateGraph st cb changes
        = (UGResult.batch status ((changes.filter (fun c => isValidChange c)).length)
            errors, st2) ∧
      errors.length = (changes.filter (fun c => !(isValidChange c))).length ∧
      (status = "ok" ↔ errors = []) ∧
      (status = "partial" ↔
        0 < (changes.filter (fun c => isValidChange c)).length ∧ errors ≠ []) ∧
      (status = "error" ↔ (changes.filter (fun c => isValidChange c)).length = 0) := by
  have hempty : changes.isEmpty = false := by
    cases changes with
    | nil => exact absurd rfl hne
    | cons c rest => rfl
  have hspec := processChanges_spec cb changes 0 st
  have hsplit := filter_valid_split changes
  have hlen : 0 < changes.length := by
    cases changes with
    | nil => exact absurd rfl hne
    | cons c rest => simp
  have heq := updateGraph_eq st cb changes hcb hempty
  by_cases he : (processChanges cb changes 0 st).2.1 = []
  · -- no errors: status ok, and some change applied
    have hEb : (processChanges cb changes 0 st).2.1.isEmpty = true := by simp [he]
    have hE0 : (changes.filter (fun c => !(isValidChange c))).length = 0 := by
      rw [← hspec.2, he]; rfl
    refine ⟨"ok", (processChanges cb changes 0 st).2.1,
      (processChanges cb changes 0 st).2.2, ?_, hspec.2, ?_, ?_, ?_⟩
    · rw [heq, hEb, hspec.1, if_pos rfl]
    · simp [he]
    · constructor
      · intro hok; exact absurd hok (by decide)
      · rintro ⟨-, hne2⟩; exact absurd he hne2
    · constructor
      · intro hok; exact absurd hok (by decide)
      · intro hA0; omega
  · have hEb : (processChanges cb changes 0 st).2.1.isEmpty = false := by
      cases hcase : (processChanges cb changes 0 st).2.1 with
      | nil => exact absurd hcase he
      | cons x xs => rfl
    by_cases ha : (processChanges cb changes 0 st).1 > 0
    · -- some applied, some failed: status partial
      refine ⟨"partial", (processChanges cb changes 0 st).2.1,
        (processChanges cb changes 0 st).2.2, ?_, hspec.2, ?_, ?_, ?_⟩
      · have haf : (List.filter (fun c => isValidChange c) changes).length > 0 := by
          rw [← hspec.1]; exact ha
        rw [heq, hEb, hspec.1, if_neg (by simp), if_pos haf]
      · constructor
        · intro hok; exact absurd hok (by decide)
        · intro hnil; exact absurd hnil he
      · constructor
        · intro _; exact ⟨by rw [← hspec.1]; exact ha, he⟩
        · intro _; rfl
      · constructor
        · intro hpe; exact absurd hpe (by decide)
        · intro hA0; rw [← hspec.1] at hA0; omega
    · -- none applied: status error
      have hA0 : (processChanges cb changes 0 st).1 = 0 := by omega
      refine ⟨"error", (processChanges cb changes 0 st).2.1,
        (processChanges cb changes 0 st).2.2, ?_, hspec.2, ?_, ?_, ?_⟩
      · have haf : ¬((List.filter (fun c => isValidChange c) changes).length > 0) := by
          rw [← hspec.1]; exact ha
        rw [heq, hEb, hspec.1, if_neg (by simp), if_neg haf]
      · constructor
        · intro hok; exact absurd hok (by decide)
        · intro hnil; exact absurd hnil he
      · constructor
        · intro hpe; exact absurd hpe (by decide)
        · rintro ⟨hpos, -⟩; rw [← hspec.1] at hpos; omega
      · constructor
        · intro _; rw [← hspec.1]; omega
        · intro _; rfl

/-- Witness for C5: the batch [valid, invalid, valid] on a concrete
store satisfies the batch semantics. -/
theorem update_graph_batch_semantics_witness :
    pyBlank "repo" = false ∧
    (∃ status errors st2,
      updateGraph baseStore "repo" [vc1W, icW, vc2W]
        = (UGResult.batch status
            (([vc1W, icW, vc2W].filter (fun c => isValidChange c)).length) errors, st2) ∧
      errors.length = (([vc1W, icW, vc2W].filter (fun c => !(isValidChange c))).length) ∧
      (status = "ok" ↔ errors = []) ∧
      (status = "partial" ↔
        0 < (([vc1W, icW, vc2W].filter (fun c => isValidChange c)).length) ∧ errors ≠ []) ∧
      (status = "error" ↔
        (([vc1W, icW, vc2W].filter (fun c => isValidChange c)).length = 0))) :=
  ⟨by decide,
   update_graph_batch_semantics baseStore "repo" [vc1W, icW, vc2W] (by decide) (by decide)⟩

/-! ## Claim C9 -/

/-- Node membership after a DETACH DELETE of a reference set. -/
theorem mem_removeRefs_nodes (st : Store) (del : List NodeRef) (n : GNode) :
    n ∈ (removeRefs st del).nodes ↔ n ∈ st.nodes ∧ ¬(nodeRef n ∈ del) := by
  unfold removeRefs
  simp [List.mem_filter]

/-- Under the MERGE discipline, the key determines the node. -/
theorem nodup_ref_inj (st : Store) (hnd : nodesNodup st) {a b : GNode}
    (ha : a ∈ st.nodes) (hb : b ∈ st.nodes) (hab : nodeRef a = nodeRef b) : a = b := by
  unfold nodesNodup at hnd
  exact List.inj_on_of_nodup_map hnd ha hb hab

/-- C9: deleting a Class through brocode_update_graph deletes the Class
node and every Function node with the same file_path and codebase whose
owner_class equals the class name (its methods), and nothing else. -/
theorem delete_class_removes_methods (st : Store) (cb fp nm : String)
    (hnd : nodesNodup st)
    (hcls : st.nodes.any (fun n => nodeRef n == NodeRef.cls fp nm cb) = true) :
    ∀ n ∈ st.nodes,
      n ∈ (dispatchChange st cb
          { action := "delete", node_type := "Class", file_path := fp,
            class_name := nm }).nodes
        ↔ ¬(nodeRef n = NodeRef.cls fp nm cb ∨ isMethodOfClass n fp nm cb = true) := by
  intro n hn
  have hdisp : dispatchChange st cb
      { action := "delete", node_type := "Class", file_path := fp, class_name := nm }
      = deleteClass st fp nm cb := rfl
  rw [hdisp]
  unfold deleteClass
  rw [if_pos hcls, mem_removeRefs_nodes]
  constructor
  · rintro ⟨-, hnotin⟩ hbad
    apply hnotin
    have hpred : (nodeRef n == NodeRef.cls fp nm cb
        || isMethodOfClass n fp nm cb) = true := by
      rcases hbad with h | h
      · simp [h]
      · simp [h]
    exact List.mem_map_of_mem nodeRef (List.mem_filter.mpr ⟨hn, hpred⟩)
  · intro hgood
    refine ⟨hn, ?_⟩
    intro hin
    obtain ⟨n2, hn2, heq⟩ := List.mem_map.mp hin
    have hn2mem : n2 ∈ st.nodes := (List.mem_filter.mp hn2).1
    have hpred2 := (List.mem_filter.mp hn2).2
    have hsame : n2 = n := nodup_ref_inj st hnd hn2mem hn heq
    subst hsame
    apply hgood
    rcases Bool.or_eq_true_iff.mp hpred2 with h | h
    · exact Or.inl (by simpa using h)
    · exact Or.inr h

/-- Witness for C9 on a concrete store, instantiated at the method node
of the deleted class. -/
theorem delete_class_removes_methods_witness :
    GNode.func "a.py" "m" "repo" 2 true "self" "C"
        ∈ (dispatchChange classStore "repo"
          { action := "delete", node_type := "Class", file_path := "a.py",
            class_name := "C" }).nodes
      ↔ ¬(nodeRef (GNode.func "a.py" "m" "repo" 2 true "self" "C")
            = NodeRef.cls "a.py" "C" "repo"
          ∨ isMethodOfClass (GNode.func "a.py" "m" "repo" 2 true "self" "C")
              "a.py" "C" "repo" = true) :=
  delete_class_removes_methods classStore "repo" "a.py" "C"
    (by unfold nodesNodup; decide) (by decide)
    (GNode.func "a.py" "m" "repo" 2 true "self" "C") (by decide)

/-! ## Claim C4 -/

/-- Every grouped agent of the response keeps the name of some row. -/
theorem groupStep_names (acc : List GroupedAgent) (r : AgentRow) (g : GroupedAgent)
    (h : g ∈ groupStep acc r) :
    (∃ g0 ∈ acc, g.agent_name = g0.agent_name) ∨ g.agent_name = r.agent_name := by
  unfold groupStep at h
  by_cases hc : acc.any (fun g => g.agent_name == r.agent_name) = true
  · rw [if_pos hc] at h
    obtain ⟨g0, hg0, hup⟩ := List.mem_map.mp h
    by_cases heq : (g0.agent_name == r.agent_name) = true
    · rw [if_pos heq] at hup
      exact Or.inl ⟨g0, hg0, by rw [← hup]⟩
    · rw [if_neg heq] at hup
      exact Or.inl ⟨g0, hg0, by rw [← hup]⟩
  · rw [if_neg hc] at h
    rcases List.mem_append.mp h with h1 | h1
    · exact Or.inl ⟨g, h1, rfl⟩
    · rw [List.mem_singleton.mp h1]
      exact Or.inr rfl

/-- The agents of the grouped response all come from the rows. -/
theorem groupAgents_names (rows : List AgentRow) :
    ∀ g ∈ groupAgents rows, ∃ r ∈ rows, g.agent_name = r.agent_name := by
  suffices h : ∀ (acc : List GroupedAgent), ∀ g ∈ rows.foldl groupStep acc,
      (∃ g0 ∈ acc, g.agent_name = g0.agent_name) ∨
      (∃ r ∈ rows, g.agent_name = r.agent_name) by
    intro g hg
    rcases h [] g hg with ⟨g0, hg0, -⟩ | hr
    · exact absurd hg0 (List.not_mem_nil g0)
    · exact hr
  induction rows with
  | nil =>
    intro acc g hg
    exact Or.inl ⟨g, hg, rfl⟩
  | cons r rest ih =>
    intro acc g hg
    rw [List.foldl_cons] at hg
    rcases ih (groupStep acc r) g hg with ⟨g0, hg0, hname⟩ | ⟨r0, hr0, hname⟩
    · rcases groupStep_names acc r g0 hg0 with ⟨g1, hg1, hname1⟩ | hname1
      · exact Or.inl ⟨g1, hg1, hname.trans hname1⟩
      · exact Or.inr ⟨r, List.mem_cons_self r rest, hname.trans hname1⟩
    · exact Or.inr ⟨r0, List.mem_cons_of_mem r hr0, hname⟩

/-- A store with at most one CLAIM edge overall satisfies the at most
one claim per node invariant. -/
theorem claimInv_of_short (st : Store) (h : st.claims.length ≤ 1) : ClaimInv st := by
  intro r
  calc claimCount st r ≤ st.claims.length := List.length_filter_le _ _
  _ ≤ 1 := h

/-- A row of GET_ACTIVE_AGENTS names the agent of one CLAIM edge. -/
theorem activeAgentRows_agent (st : Store) (cbn : Option String) (r : AgentRow)
    (h : r ∈ activeAgentRows st cbn) :
    ∃ k ∈ st.claims, r.agent_name = k.agent := by
  unfold activeAgentRows at h
  obtain ⟨k, hk, hfk⟩ := List.mem_filterMap.mp h
  cases hfind : findAgent st k.agent with
  | none => rw [hfind] at hfk; simp at hfk
  | some a =>
    rw [hfind] at hfk
    have hfk2 : (if (st.nodes.any (fun n => nodeRef n == k.target)
          && cbScope cbn k.target) = true then
        some (⟨k.agent, a.model, refPrimaryType k.target,
          refPathColumn k.target, k.reason⟩ : AgentRow) else none) = some r := hfk
    by_cases hcond : (st.nodes.any (fun n => nodeRef n == k.target)
        && cbScope cbn k.target) = true
    · rw [if_pos hcond] at hfk2
      refine ⟨k, hk, ?_⟩
      rw [← Option.some_inj.mp hfk2]
    · rw [if_neg hcond] at hfk2
      exact absurd hfk2 (by simp)

/-- C4: releasing the only claim an agent holds removes the CLAIM edge,
deletes the Agent node because its remaining claim count is zero, and
the agent no longer appears in brocode_get_active_agents. -/
theorem release_last_claim_cleanup (st : Store) (X p cb : String) (c : ClaimEdge)
    (hwf : WF st)
    (hone : st.claims.filter (fun k => k.agent == X) = [c])
    (hmatch : refMatchesClaimTarget c.target p cb = true) :
    (releaseNode st X p cb).1 = ReleaseOutcome.released p X ∧
    ((releaseNode st X p cb).2.claims.filter (fun k => k.agent == X)) = [] ∧
    findAgent (releaseNode st X p cb).2 X = none ∧
    ∀ cbn : String, ∀ g ∈ getActiveAgents (releaseNode st X p cb).2 cbn,
      g.agent_name ≠ X := by
  have hcmem : c ∈ st.claims.filter (fun k => k.agent == X) := by
    rw [hone]; exact List.mem_singleton.mpr rfl
  obtain ⟨hcm, hcX⟩ := List.mem_filter.mp hcmem
  have hXeq : c.agent = X := by simpa using hcX
  obtain ⟨hagt, hnod⟩ := hwf.2.1 c hcm
  have hrm : releaseMatch st X p cb c = true := by
    unfold releaseMatch
    rw [hXeq] at hagt
    simp [hcX, hagt, hnod, hmatch]
  have hany : st.claims.any (releaseMatch st X p cb) = true :=
    List.any_eq_true.mpr ⟨c, hcm, hrm⟩
  -- the released store before agent cleanup
  have hrel : releaseClaim st X p cb
      = (some (), { st with claims := st.claims.filter (fun k => !(releaseMatch st X p cb k)) }) := by
    unfold releaseClaim
    rw [if_pos hany]
  -- after the release no claim of X remains
  have hnoX : ∀ k ∈ st.claims.filter (fun k => !(releaseMatch st X p cb k)),
      ¬((k.agent == X) = true) := by
    intro k hk hkX
    obtain ⟨hkmem, hknot⟩ := List.mem_filter.mp hk
    have hkc : k = c := by
      have : k ∈ st.claims.filter (fun k2 => k2.agent == X) :=
        List.mem_filter.mpr ⟨hkmem, hkX⟩
      rw [hone] at this
      exact List.mem_singleton.mp this
    rw [hkc, hrm] at hknot
    simp at hknot
  have hfilX : (st.claims.filter (fun k => !(releaseMatch st X p cb k))).filter
      (fun k => k.agent == X) = [] := by
    rw [List.filter_eq_nil_iff]
    exact hnoX
  -- the remaining claim count of X is zero
  have hcount : countAgentClaims
      { st with claims := st.claims.filter (fun k => !(releaseMatch st X p cb k)) } X = 0 := by
    unfold countAgentClaims
    rw [List.length_eq_zero, List.filter_eq_nil_iff]
    intro k hk hkpred
    have hk2 : k ∈ st.claims.filter (fun k => !(releaseMatch st X p cb k)) := hk
    have hkX : (k.agent == X) = true := by
      rcases Bool.and_eq_true_iff.mp hkpred with ⟨h1, -⟩
      rcases Bool.and_eq_true_iff.mp h1 with ⟨h2, -⟩
      exact h2
    exact hnoX k hk2 hkX
  -- the full releaseNode run
  have hrun : releaseNode st X p cb
      = (ReleaseOutcome.released p X,
         deleteAgent { st with claims := st.claims.filter (fun k => !(releaseMatch st X p cb k)) } X) := by
    have hbeq2 : (countAgentClaims
        { st with claims := st.claims.filter (fun k => !(releaseMatch st X p cb k)) } X == 0) = true := by
      rw [hcount]
      rfl
    unfold releaseNode
    rw [hrel]
    simp only [hbeq2, if_true]
  rw [hrun]
  refine ⟨rfl, ?_, ?_, ?_⟩
  · -- claims of X stay empty after the agent delete
    rw [List.filter_eq_nil_iff]
    intro k hk hkX
    have hk2 : k ∈ st.claims.filter (fun k => !(releaseMatch st X p cb k)) := by
      have := List.mem_filter.mp hk
      exact this.1
    exact hnoX k hk2 hkX
  · -- the Agent node is gone
    unfold deleteAgent removeRefs findAgent
    rw [List.find?_eq_none]
    intro a ha hX2
    obtain ⟨-, hkeep⟩ := List.mem_filter.mp ha
    have haX : a.name = X := by simpa using hX2
    rw [haX] at hkeep
    simp at hkeep
  · -- not listed by get_active_agents
    intro cbn g hg hgX
    obtain ⟨r, hr, hname⟩ := groupAgents_names _ g hg
    obtain ⟨k, hk, hrk⟩ := activeAgentRows_agent _ _ r hr
    have hkX : (k.agent == X) = true := by
      rw [← hrk, ← hname, hgX]
      exact beq_self_eq_true X
    -- k is a surviving claim of X: contradiction
    have hk1 : k ∈ st.claims.filter (fun k => !(releaseMatch st X p cb k)) := by
      have := List.mem_filter.mp hk
      exact this.1
    exact hnoX k hk1 hkX

/-- Witness for C4: A releases its single claim on claimedStore and is
gone from the store and from get_active_agents. -/
theorem release_last_claim_cleanup_witness :
    (releaseNode claimedStore "A" "src/x.py" "repo").1
        = ReleaseOutcome.released "src/x.py" "A" ∧
    ((releaseNode claimedStore "A" "src/x.py" "repo").2.claims.filter
        (fun k => k.agent == "A")) = [] ∧
    findAgent (releaseNode claimedStore "A" "src/x.py" "repo").2 "A" = none ∧
    ∀ cbn : String, ∀ g ∈ getActiveAgents
        (releaseNode claimedStore "A" "src/x.py" "repo").2 cbn,
      g.agent_name ≠ "A" :=
  release_last_claim_cleanup claimedStore "A" "src/x.py" "repo"
    ⟨"A", NodeRef.file "src/x.py" "repo", "fix bug"⟩
    ⟨by unfold nodesNodup; decide,
     by unfold claimEndpointsOk; decide,
     claimInv_of_short claimedStore (by decide)⟩
    (by decide) (by decide)

/-! ## Claim C6 -/

/-- The expansion step keeps its input. -/
theorem subset_stepClose (es : List (NodeRef × NodeRef)) (s : List NodeRef) :
    ∀ x ∈ s, x ∈ stepClose es s := by
  intro x hx
  unfold stepClose
  rw [List.mem_dedup]
  exact List.mem_append.mpr (Or.inl hx)

/-- The fuelled closure keeps its input. -/
theorem subset_closeFuel (es : List (NodeRef × NodeRef)) :
    ∀ (f : Nat) (s : List NodeRef), ∀ x ∈ s, x ∈ closeFuel es f s := by
  intro f
  induction f with
  | zero => intro s x hx; exact hx
  | succ n ih =>
    intro s x hx
    unfold closeFuel
    by_cases hc : (stepClose es s).length ≤ s.length
    · rw [if_pos hc]; exact subset_stepClose es s x hx
    · rw [if_neg hc]; exact ih _ x (subset_stepClose es s x hx)

/-- Members of the expansion step are old members or one-step
successors. -/
theorem mem_stepClose (es : List (NodeRef × NodeRef)) (s : List NodeRef) (x : NodeRef)
    (h : x ∈ stepClose es s) :
    x ∈ s ∨ ∃ y ∈ s, (y, x) ∈ es := by
  unfold stepClose at h
  rw [List.mem_dedup] at h
  rcases List.mem_append.mp h with h1 | h1
  · exact Or.inl h1
  · unfold succsOf at h1
    obtain ⟨e, he, hx⟩ := List.mem_map.mp h1
    obtain ⟨hees, hcont⟩ := List.mem_filter.mp he
    right
    refine ⟨e.1, by simpa using hcont, ?_⟩
    rw [← hx]
    simpa using hees

/-- Everything the closure reaches is reachable over the edge list. -/
theorem closeFuel_sound (es : List (NodeRef × NodeRef)) :
    ∀ (f : Nat) (s : List NodeRef) (x : NodeRef), x ∈ closeFuel es f s →
      ∃ y ∈ s, Relation.ReflTransGen (fun a b => (a, b) ∈ es) y x := by
  intro f
  induction f with
  | zero => intro s x hx; exact ⟨x, hx, .refl⟩
  | succ n ih =>
    intro s x hx
    unfold closeFuel at hx
    by_cases hc : (stepClose es s).length ≤ s.length
    · rw [if_pos hc] at hx
      rcases mem_stepClose es s x hx with h1 | ⟨y, hy, hyx⟩
      · exact ⟨x, h1, .refl⟩
      · exact ⟨y, hy, Relation.ReflTransGen.single hyx⟩
    · rw [if_neg hc] at hx
      obtain ⟨z, hz, hzx⟩ := ih _ x hx
      rcases mem_stepClose es s z hz with h1 | ⟨y, hy, hyz⟩
      · exact ⟨z, h1, hzx⟩
      · exact ⟨y, hy, (Relation.ReflTransGen.single hyz).trans hzx⟩

/-- A duplicate-free list that fits inside a list it covers contains it. -/
theorem mem_of_superset_length (s u : List NodeRef) (hs : s.Nodup)
    (hsub : ∀ x ∈ s, x ∈ u) (hlen : u.length ≤ s.length) : ∀ x ∈ u, x ∈ s := by
  have h1 : s.toFinset ⊆ u.toFinset := by
    intro x hx
    exact List.mem_toFinset.mpr (hsub x (List.mem_toFinset.mp hx))
  have hcs : s.toFinset.card = s.length := List.toFinset_card_of_nodup hs
  have hcu : u.toFinset.card ≤ u.length := List.toFinset_card_le u
  have heq : s.toFinset = u.toFinset := Finset.eq_of_subset_of_card_le h1 (by omega)
  intro x hx
  exact List.mem_toFinset.mp (heq ▸ List.mem_toFinset.mpr hx)

/-- With enough fuel the closure is closed under the edges: the step
either stabilises (and the result is closed) or strictly grows inside a
fixed universe. -/
theorem closeFuel_closed (es : List (NodeRef × NodeRef)) (u : List NodeRef)
    (hu : ∀ e ∈ es, e.2 ∈ u) :
    ∀ (f : Nat) (s : List NodeRef), s.Nodup → (∀ x ∈ s, x ∈ u) →
      u.length ≤ f + s.length →
      ∀ e ∈ es, e.1 ∈ closeFuel es f s → e.2 ∈ closeFuel es f s := by
  intro f
  induction f with
  | zero =>
    intro s hnd hsu hlen e he _
    exact mem_of_superset_length s u hnd hsu (by omega) _ (hu e he)
  | succ n ih =>
    intro s hnd hsu hlen e he hsrc
    unfold closeFuel at hsrc ⊢
    by_cases hc : (stepClose es s).length ≤ s.length
    · rw [if_pos hc] at hsrc ⊢
      have hsub : ∀ x ∈ stepClose es s, x ∈ s :=
        mem_of_superset_length s (stepClose es s) hnd (subset_stepClose es s) hc
      have h1 : e.1 ∈ s := hsub _ hsrc
      unfold stepClose
      rw [List.mem_dedup, List.mem_append]
      right
      unfold succsOf
      refine List.mem_map.mpr ⟨e, List.mem_filter.mpr ⟨he, ?_⟩, rfl⟩
      simpa using h1
    · rw [if_neg hc] at hsrc ⊢
      have hgrow : s.length < (stepClose es s).length := by omega
      refine ih (stepClose es s) (List.nodup_dedup _) ?_ (by omega) e he hsrc
      intro x hx
      rcases mem_stepClose es s x hx with h1 | ⟨y, hy, hyx⟩
      · exact hsu x h1
      · exact hu (y, x) hyx

/-- The deleted set of DELETE_DIRECTORY / DELETE_FILE is exactly the set
of nodes reachable from the matched node over the relationship list. -/
theorem reachClosure_iff (es : List (NodeRef × NodeRef)) (start x : NodeRef) :
    x ∈ reachClosure es start ↔
      Relation.ReflTransGen (fun a b => (a, b) ∈ es) start x := by
  constructor
  · intro hx
    obtain ⟨y, hy, hr⟩ := closeFuel_sound es _ _ x hx
    rw [List.mem_singleton.mp hy] at hr
    exact hr
  · intro hr
    induction hr with
    | refl => exact subset_closeFuel es _ [start] start (List.mem_singleton.mpr rfl)
    | tail hab hbc ih =>
      refine closeFuel_closed es (start :: es.map (fun e => e.2)) ?_ (es.length + 1)
        [start] (List.nodup_singleton start) ?_ ?_ _ hbc ih
      · intro e he
        exact List.mem_cons_of_mem start (List.mem_map.mpr ⟨e, he, rfl⟩)
      · intro z hz
        rw [List.mem_singleton.mp hz]
        exact List.mem_cons_self start _
      · simp

/-- A node reachable over containment edges whose destinations are never
Agent nodes is itself not an Agent node (when the start is not). -/
theorem rtg_no_agent (st : Store) (hschema : ∀ e ∈ st.edges, isAgentRef e.dst = false)
    (start : NodeRef) (hstart : isAgentRef start = false) :
    ∀ x, Relation.ReflTransGen
        (fun a b => (a, b) ∈ st.edges.map (fun e => (e.src, e.dst))) start x →
      isAgentRef x = false := by
  intro x hr
  induction hr with
  | refl => exact hstart
  | tail hab hbc ih =>
    obtain ⟨e, he, heq⟩ := List.mem_map.mp hbc
    have hdst := congrArg Prod.snd heq
    simp only at hdst
    rw [← hdst]
    exact hschema e he

/-- When containment edges never point at Agent nodes, the `[*]`
traversal (over containment and CLAIM relationships) from a non-Agent
start reaches exactly what the containment edges alone reach: CLAIM
relationships always leave an Agent node, which the walk never visits. -/
theorem rtg_all_iff_containment (st : Store)
    (hschema : ∀ e ∈ st.edges, isAgentRef e.dst = false)
    (start x : NodeRef) (hstart : isAgentRef start = false) :
    Relation.ReflTransGen (fun a b => (a, b) ∈ allEdgePairs st) start x ↔
      Relation.ReflTransGen
        (fun a b => (a, b) ∈ st.edges.map (fun e => (e.src, e.dst))) start x := by
  constructor
  · intro hr
    induction hr with
    | refl => exact .refl
    | tail hab hbc ih =>
      rcases List.mem_append.mp hbc with h1 | h1
      · exact ih.tail h1
      · obtain ⟨k, hk, heq⟩ := List.mem_map.mp h1
        have hsrc := congrArg Prod.fst heq
        simp only at hsrc
        have hbnot := rtg_no_agent st hschema start hstart _ ih
        rw [← hsrc] at hbnot
        exact absurd hbnot (by simp [isAgentRef])
  · intro hr
    refine Relation.ReflTransGen.mono ?_ hr
    intro a b hab
    unfold allEdgePairs
    exact List.mem_append.mpr (Or.inl hab)

/-- C6: deleting a Directory removes the directory node together with
every node reachable from it over outgoing containment edges, and
removes no other node — sibling subtrees survive. -/
theorem delete_directory_cascade (st : Store) (p cb : String)
    (hd : st.nodes.any (fun n => nodeRef n == NodeRef.directory p cb) = true)
    (hschema : ∀ e ∈ st.edges, isAgentRef e.dst = false) :
    ∀ n ∈ st.nodes,
      n ∈ (deleteDirectory st p cb).nodes ↔
        ¬ Relation.ReflTransGen
            (fun a b => (a, b) ∈ st.edges.map (fun e => (e.src, e.dst)))
            (NodeRef.directory p cb) (nodeRef n) := by
  intro n hn
  unfold deleteDirectory
  rw [if_pos hd, mem_removeRefs_nodes]
  constructor
  · rintro ⟨-, hnot⟩ hr
    apply hnot
    rw [reachClosure_iff]
    exact (rtg_all_iff_containment st hschema (NodeRef.directory p cb) (nodeRef n) rfl).mpr hr
  · intro hnr
    refine ⟨hn, fun hin => hnr ?_⟩
    rw [reachClosure_iff] at hin
    exact (rtg_all_iff_containment st hschema (NodeRef.directory p cb) (nodeRef n) rfl).mp hin

/-- Witness for C6 on a concrete tree, instantiated at the sibling file
outside the deleted subtree. -/
theorem delete_directory_cascade_witness :
    GNode.file "other.py" "repo" "other.py" ".py" 1
        ∈ (deleteDirectory treeStore "src" "repo").nodes ↔
      ¬ Relation.ReflTransGen
          (fun a b => (a, b) ∈ treeStore.edges.map (fun e => (e.src, e.dst)))
          (NodeRef.directory "src" "repo")
          (nodeRef (GNode.file "other.py" "repo" "other.py" ".py" 1)) :=
  delete_directory_cascade treeStore "src" "repo" (by decide) (by decide)
    (GNode.file "other.py" "repo" "other.py" ".py" 1) (by decide)

/-! ## Claim C1 -/

/-- claimCount through countP. -/
theorem claimCount_eq (st : Store) (r : NodeRef) :
    claimCount st r = countTarget st.claims r := by
  unfold claimCount countTarget
  exact (List.countP_eq_length_filter _ _).symm

/-- Filtering claims never raises the per-node claim count. -/
theorem countTarget_filter_le (cl : List ClaimEdge) (q : ClaimEdge → Bool) (r : NodeRef) :
    countTarget (cl.filter q) r ≤ countTarget cl r := by
  unfold countTarget
  exact List.Sublist.countP_le _ (List.filter_sublist cl)

/-- Members of a CLAIM-edge MERGE keep an existing (agent, target) pair
or are the merged pair. -/
theorem mem_mergeClaimEdge (cl : List ClaimEdge) (agent : String) (t : NodeRef)
    (reason : String) (k : ClaimEdge) (hk : k ∈ mergeClaimEdge cl agent t reason) :
    (∃ k0 ∈ cl, k.agent = k0.agent ∧ k.target = k0.target) ∨
      (k.agent = agent ∧ k.target = t) := by
  unfold mergeClaimEdge at hk
  by_cases hc : cl.any (fun c => c.agent == agent && c.target == t) = true
  · rw [if_pos hc] at hk
    obtain ⟨k0, hk0, heq⟩ := List.mem_map.mp hk
    by_cases h2 : (k0.agent == agent && k0.target == t) = true
    · rw [if_pos h2] at heq
      exact Or.inl ⟨k0, hk0, by rw [← heq], by rw [← heq]⟩
    · rw [if_neg h2] at heq
      exact Or.inl ⟨k0, hk0, by rw [← heq], by rw [← heq]⟩
  · rw [if_neg hc] at hk
    rcases List.mem_append.mp hk with h1 | h1
    · exact Or.inl ⟨k, h1, rfl, rfl⟩
    · rw [List.mem_singleton.mp h1]
      exact Or.inr ⟨rfl, rfl⟩

/-- Members of the CLAIM-edge fold of CREATE_CLAIM keep an existing
(agent, target) pair or claim one of the matched nodes for the agent. -/
theorem mem_foldl_merge (agent reason : String) :
    ∀ (ns : List GNode) (cl : List ClaimEdge) (k : ClaimEdge),
      k ∈ ns.foldl (fun acc n => mergeClaimEdge acc agent (nodeRef n) reason) cl →
      (∃ k0 ∈ cl, k.agent = k0.agent ∧ k.target = k0.target) ∨
      (k.agent = agent ∧ ∃ n ∈ ns, k.target = nodeRef n) := by
  intro ns
  induction ns with
  | nil => intro cl k hk; exact Or.inl ⟨k, hk, rfl, rfl⟩
  | cons n rest ih =>
    intro cl k hk
    rw [List.foldl_cons] at hk
    rcases ih _ k hk with ⟨k0, hk0, ha, ht⟩ | ⟨ha, n2, hn2, ht⟩
    · rcases mem_mergeClaimEdge cl agent (nodeRef n) reason k0 hk0 with
        ⟨k1, hk1, ha1, ht1⟩ | ⟨ha1, ht1⟩
      · exact Or.inl ⟨k1, hk1, ha.trans ha1, ht.trans ht1⟩
      · exact Or.inr ⟨ha.trans ha1, n, List.mem_cons_self n rest, ht.trans ht1⟩
    · exact Or.inr ⟨ha, n2, List.mem_cons_of_mem n hn2, ht⟩

/-- A CLAIM-edge MERGE raises the count of its own target by at most one
and no other count. -/
theorem countTarget_mergeClaimEdge (cl : List ClaimEdge) (agent : String) (t : NodeRef)
    (reason : String) (r : NodeRef) :
    countTarget (mergeClaimEdge cl agent t reason) r
      ≤ countTarget cl r + (if t = r then 1 else 0) := by
  unfold mergeClaimEdge
  by_cases hc : cl.any (fun c => c.agent == agent && c.target == t) = true
  · rw [if_pos hc]
    have heq : countTarget (cl.map (fun c =>
        if c.agent == agent && c.target == t then { c with reason := reason } else c)) r
        = countTarget cl r := by
      unfold countTarget
      rw [List.countP_map]
      apply List.countP_congr
      intro c _
      by_cases h2 : (c.agent == agent && c.target == t) = true
      · simp [Function.comp, h2]
      · simp [Function.comp, h2]
    rw [heq]
    exact Nat.le_add_right _ _
  · rw [if_neg hc]
    unfold countTarget
    rw [List.countP_append]
    by_cases ht : t = r
    · simp [ht]
    · have : ((⟨agent, t, reason⟩ : ClaimEdge).target == r) = false := by
        simpa using ht
      simp [List.countP_cons, this]

/-- Folding CLAIM-edge MERGEs over nodes with distinct keys adds at most
one claim to any given node. -/
theorem countTarget_foldl_merge (agent reason : String) :
    ∀ (ns : List GNode) (cl : List ClaimEdge) (r : NodeRef),
      (ns.map nodeRef).Nodup →
      countTarget (ns.foldl (fun acc n => mergeClaimEdge acc agent (nodeRef n) reason) cl) r
        ≤ countTarget cl r + (if r ∈ ns.map nodeRef then 1 else 0) := by
  intro ns
  induction ns with
  | nil => intro cl r _; simp
  | cons n rest ih =>
    intro cl r hnd
    rw [List.foldl_cons]
    have hnd0 : (nodeRef n :: rest.map nodeRef).Nodup := by simpa using hnd
    have hnd2 : (rest.map nodeRef).Nodup := (List.nodup_cons.mp hnd0).2
    have h2 := countTarget_mergeClaimEdge cl agent (nodeRef n) reason r
    have h1 := ih (mergeClaimEdge cl agent (nodeRef n) reason) r hnd2
    by_cases hr : r = nodeRef n
    · have hnotin : r ∉ rest.map nodeRef := by
        rw [hr]
        exact (List.nodup_cons.mp hnd0).1
      rw [if_neg hnotin] at h1
      rw [if_pos hr.symm] at h2
      have hmem : r ∈ (n :: rest).map nodeRef := by simp [hr]
      rw [if_pos hmem]
      omega
    · rw [if_neg (fun hh : nodeRef n = r => hr hh.symm)] at h2
      by_cases hrest : r ∈ rest.map nodeRef
      · rw [if_pos hrest] at h1
        have hmem : r ∈ (n :: rest).map nodeRef := by simp [hrest]
        rw [if_pos hmem]
        omega
      · rw [if_neg hrest] at h1
        have hmem : r ∉ (n :: rest).map nodeRef := by
          rw [List.map_cons, List.mem_cons]
          rintro (h | h)
          · exact hr h
          · exact hrest h
        rw [if_neg hmem]
        omega

/-- The store CREATE_CLAIM leaves behind, written out. -/
theorem createClaim_snd (st : Store) (a m p cb r : String) :
    (createClaim st a m p cb r).2 =
      { st with agents := mergeAgent st.agents a m, claims := createdClaims st a p cb r } := by
  unfold createClaim createdClaims
  cases hm : st.nodes.filter (fun n => claimTargets n p cb) with
  | nil => rfl
  | cons n rest => rfl

/-- When CHECK_EXISTING_CLAIM saw no claims in a store with no dangling
CLAIM edges, every node matching the claim-target clause carries zero
CLAIM edges. -/
theorem countTarget_zero_of_no_matching (st : Store) (p cb : String)
    (hep : claimEndpointsOk st)
    (hmc : matchingClaims st p cb = []) (t : NodeRef)
    (ht : refMatchesClaimTarget t p cb = true) :
    countTarget st.claims t = 0 := by
  unfold countTarget
  rw [List.countP_eq_zero]
  intro k hk hkt
  have hkt2 : k.target = t := by simpa using hkt
  obtain ⟨hag, hnd⟩ := hep k hk
  obtain ⟨a0, ha0m, ha0⟩ := List.any_eq_true.mp hag
  have hfind : (st.agents.find? (fun x => x.name == k.agent)).isSome = true :=
    List.find?_isSome.mpr ⟨a0, ha0m, ha0⟩
  obtain ⟨a1, ha1⟩ := Option.isSome_iff_exists.mp hfind
  have hmem : (⟨k.agent, a1.model, k.reason⟩ : ClaimRow) ∈ matchingClaims st p cb := by
    unfold matchingClaims
    apply List.mem_filterMap.mpr
    refine ⟨k, hk, ?_⟩
    rw [ha1]
    have hnd2 : (st.nodes.any fun n => nodeRef n == t) = true := by
      rw [← hkt2]; exact hnd
    have hcond : (st.nodes.any (fun n => nodeRef n == k.target)
        && refMatchesClaimTarget k.target p cb) = true := by
      rw [hkt2, ht, Bool.and_true]
      exact hnd2
    exact if_pos hcond
  rw [hmc] at hmem
  exact absurd hmem (List.not_mem_nil _)

/-- MERGE of an Agent node preserves the presence of any agent name. -/
theorem any_name_mergeAgent (agents : List AgentNode) (nm model z : String)
    (h : agents.any (fun a => a.name == z) = true) :
    (mergeAgent agents nm model).any (fun a => a.name == z) = true := by
  unfold mergeAgent
  by_cases hc : agents.any (fun a => a.name == nm) = true
  · rw [if_pos hc]
    obtain ⟨a, ha, haz⟩ := List.any_eq_true.mp h
    refine List.any_eq_true.mpr
      ⟨if a.name == nm then { a with model := model } else a,
       List.mem_map.mpr ⟨a, ha, rfl⟩, ?_⟩
    by_cases h2 : (a.name == nm) = true
    · rw [if_pos h2]; exact haz
    · rw [if_neg h2]; exact haz
  · rw [if_neg hc, List.any_append, h]
    rfl

/-- MERGE of an Agent node makes that agent present. -/
theorem mergeAgent_self (agents : List AgentNode) (nm model : String) :
    (mergeAgent agents nm model).any (fun a => a.name == nm) = true := by
  unfold mergeAgent
  by_cases hc : agents.any (fun a => a.name == nm) = true
  · rw [if_pos hc]
    obtain ⟨a, ha, haz⟩ := List.any_eq_true.mp hc
    refine List.any_eq_true.mpr
      ⟨if a.name == nm then { a with model := model } else a,
       List.mem_map.mpr ⟨a, ha, rfl⟩, ?_⟩
    rw [if_pos haz]
    exact haz
  · rw [if_neg hc, List.any_append]
    simp

/-- A name-preserving conditional update of the agent list preserves the
presence of any agent name. -/
theorem any_name_map_update (agents : List AgentNode) (tgt z : String)
    (g : AgentNode → AgentNode) (hg : ∀ a, (g a).name = a.name) :
    ((agents.map (fun x => if x.name == tgt then g x else x)).any (fun a => a.name == z))
      = agents.any (fun a => a.name == z) := by
  induction agents with
  | nil => rfl
  | cons a rest ih =>
    rw [List.map_cons, List.any_cons, List.any_cons, ih]
    by_cases h : (a.name == tgt) = true
    · rw [if_pos h, hg a]
    · rw [if_neg h]

/-- MERGE of a graph node never duplicates a key. -/
theorem nodup_upsertNode (nodes : List GNode) (g : GNode)
    (h : (nodes.map nodeRef).Nodup) : ((upsertNode nodes g).map nodeRef).Nodup := by
  unfold upsertNode
  by_cases hc : nodes.any (fun n => nodeRef n == nodeRef g) = true
  · rw [if_pos hc]
    have heq : (nodes.map (fun n => if nodeRef n == nodeRef g then g else n)).map nodeRef
        = nodes.map nodeRef := by
      rw [List.map_map]
      apply List.map_congr_left
      intro n _
      by_cases h2 : (nodeRef n == nodeRef g) = true
      · simp only [Function.comp_apply, if_pos h2]
        exact (beq_iff_eq.mp h2).symm
      · simp only [Function.comp_apply, if_neg h2]
    rw [heq]
    exact h
  · rw [if_neg hc, List.map_append]
    refine List.Nodup.append h (List.nodup_singleton _) ?_
    intro x hx hx2
    rw [show x = nodeRef g from by simpa using hx2] at hx
    obtain ⟨n, hn, heq⟩ := List.mem_map.mp hx
    exact hc (List.any_eq_true.mpr ⟨n, hn, by simp [heq]⟩)

/-- MERGE of a graph node preserves the presence of any key. -/
theorem any_ref_upsertNode (nodes : List GNode) (g : GNode) (t : NodeRef)
    (h : nodes.any (fun n => nodeRef n == t) = true) :
    (upsertNode nodes g).any (fun n => nodeRef n == t) = true := by
  unfold upsertNode
  by_cases hc : nodes.any (fun n => nodeRef n == nodeRef g) = true
  · rw [if_pos hc]
    obtain ⟨n, hn, hnt⟩ := List.any_eq_true.mp h
    by_cases hng : (nodeRef n == nodeRef g) = true
    · refine List.any_eq_true.mpr ⟨g, List.mem_map.mpr ⟨n, hn, by rw [if_pos hng]⟩, ?_⟩
      have h1 : nodeRef n = nodeRef g := beq_iff_eq.mp hng
      have h2 : nodeRef n = t := beq_iff_eq.mp hnt
      rw [← h1, h2]
      exact beq_self_eq_true t
    · exact List.any_eq_true.mpr ⟨n, List.mem_map.mpr ⟨n, hn, by rw [if_neg hng]⟩, hnt⟩
  · rw [if_neg hc, List.any_append, h]
    rfl

/-- DETACH DELETE preserves wellformedness. -/
theorem WF_removeRefs (st : Store) (del : List NodeRef) (h : WF st) :
    WF (removeRefs st del) := by
  obtain ⟨hnd, hep, hinv⟩ := h
  refine ⟨?_, ?_, ?_⟩
  · exact List.Nodup.sublist (List.Sublist.map nodeRef (List.filter_sublist _)) hnd
  · intro c hc
    obtain ⟨hcm, hkeep⟩ := List.mem_filter.mp hc
    obtain ⟨ha, hn⟩ := hep c hcm
    obtain ⟨hka, hkt⟩ := Bool.and_eq_true_iff.mp hkeep
    constructor
    · obtain ⟨a, ham, haeq⟩ := List.any_eq_true.mp ha
      refine List.any_eq_true.mpr ⟨a, List.mem_filter.mpr ⟨ham, ?_⟩, haeq⟩
      rw [show a.name = c.agent from beq_iff_eq.mp haeq]
      exact hka
    · obtain ⟨n, hnm, hneq⟩ := List.any_eq_true.mp hn
      refine List.any_eq_true.mpr ⟨n, List.mem_filter.mpr ⟨hnm, ?_⟩, hneq⟩
      rw [show nodeRef n = c.target from beq_iff_eq.mp hneq]
      exact hkt
  · intro r
    rw [claimCount_eq]
    calc countTarget (removeRefs st del).claims r
        ≤ countTarget st.claims r := countTarget_filter_le _ _ _
      _ = claimCount st r := (claimCount_eq st r).symm
      _ ≤ 1 := hinv r

/-- MERGE of a graph node preserves wellformedness. -/
theorem WF_storeUpsertNode (st : Store) (g : GNode) (h : WF st) :
    WF (storeUpsertNode st g) := by
  obtain ⟨hnd, hep, hinv⟩ := h
  refine ⟨nodup_upsertNode st.nodes g hnd, ?_, hinv⟩
  intro k hk
  obtain ⟨ha, hn⟩ := hep k hk
  exact ⟨ha, any_ref_upsertNode st.nodes g k.target hn⟩

/-- MERGE of a containment edge preserves wellformedness. -/
theorem WF_linkIfSrcExists (st : Store) (src : NodeRef) (rel : RelType) (dst : NodeRef)
    (h : WF st) : WF (linkIfSrcExists st src rel dst) := by
  unfold linkIfSrcExists
  split
  · exact h
  · exact h

/-- CREATE_CLAIM preserves wellformedness when the check transaction of
the same sequential call observed zero claims on the target. -/
theorem WF_createClaim (st : Store) (a m p cb r : String) (h : WF st)
    (hmc : matchingClaims st p cb = []) : WF (createClaim st a m p cb r).2 := by
  obtain ⟨hnd, hep, hinv⟩ := h
  rw [createClaim_snd]
  have hmnodup : ((st.nodes.filter (fun n => claimTargets n p cb)).map nodeRef).Nodup :=
    List.Nodup.sublist (List.Sublist.map nodeRef (List.filter_sublist _)) hnd
  refine ⟨hnd, ?_, ?_⟩
  · -- endpoints of the merged claim list
    intro k hk
    have hk2 : k ∈ createdClaims st a p cb r := hk
    unfold createdClaims at hk2
    rcases mem_foldl_merge a r _ _ k hk2 with ⟨k0, hk0, ha, ht⟩ | ⟨ha, n2, hn2, ht⟩
    · obtain ⟨hag, hnode⟩ := hep k0 hk0
      constructor
      · rw [ha]
        exact any_name_mergeAgent st.agents a m k0.agent hag
      · rw [ht]
        exact hnode
    · constructor
      · rw [ha]
        exact mergeAgent_self st.agents a m
      · rw [ht]
        exact List.any_eq_true.mpr
          ⟨n2, (List.mem_filter.mp hn2).1, beq_self_eq_true (nodeRef n2)⟩
  · -- at most one claim per node
    intro r2
    rw [claimCount_eq]
    change countTarget (createdClaims st a p cb r) r2 ≤ 1
    have hfold := countTarget_foldl_merge a r
      (st.nodes.filter (fun n => claimTargets n p cb)) st.claims r2 hmnodup
    by_cases hmem : r2 ∈ (st.nodes.filter (fun n => claimTargets n p cb)).map nodeRef
    · rw [if_pos hmem] at hfold
      obtain ⟨n2, hn2, heq⟩ := List.mem_map.mp hmem
      have hpred : claimTargets n2 p cb = true := (List.mem_filter.mp hn2).2
      have ht : refMatchesClaimTarget r2 p cb = true := by
        rw [← heq]
        exact hpred
      have h0 := countTarget_zero_of_no_matching st p cb hep hmc r2 ht
      have hfold2 : countTarget (createdClaims st a p cb r) r2
          ≤ countTarget st.claims r2 + 1 := hfold
      omega
    · rw [if_neg hmem] at hfold
      have h1 : countTarget st.claims r2 ≤ 1 := by
        rw [← claimCount_eq]
        exact hinv r2
      have hfold2 : countTarget (createdClaims st a p cb r) r2
          ≤ countTarget st.claims r2 + 0 := hfold
      omega

/-- brocode_claim_node preserves wellformedness. -/
theorem WF_claimNode (st : Store) (a m p cb r : String) (h : WF st) :
    WF (claimNode st a m p cb r).2 := by
  unfold claimNode
  by_cases hb : pyBlank r = true
  · rw [if_pos hb]; exact h
  · rw [if_neg hb]
    cases hex : checkNodeExists st p cb with
    | none => exact h
    | some n0 =>
      show WF (claimAfterCheck st a m p cb r (matchingClaims st p cb)).2
      unfold claimAfterCheck
      cases hmc : matchingClaims st p cb with
      | cons row rest =>
        show WF (if (row.agent_name == a) = true then (ClaimOutcome.alreadyYours p, st)
          else (ClaimOutcome.conflict row.agent_name row.claim_reason, st)).2
        by_cases hrow : (row.agent_name == a) = true
        · rw [if_pos hrow]; exact h
        · rw [if_neg hrow]; exact h
      | nil =>
        have hwf2 := WF_createClaim st a m p cb r h hmc
        rcases hcr : createClaim st a m p cb r with ⟨o, st1⟩
        rw [hcr] at hwf2
        cases o with
        | none => exact hwf2
        | some n1 => exact hwf2

/-- RELEASE_CLAIM preserves wellformedness. -/
theorem WF_releaseClaim (st : Store) (a p cb : String) (h : WF st) :
    WF (releaseClaim st a p cb).2 := by
  unfold releaseClaim
  by_cases hc : st.claims.any (releaseMatch st a p cb) = true
  · rw [if_pos hc]
    obtain ⟨hnd, hep, hinv⟩ := h
    refine ⟨hnd, ?_, ?_⟩
    · intro k hk
      exact hep k (List.mem_filter.mp hk).1
    · intro r
      rw [claimCount_eq]
      calc countTarget (st.claims.filter (fun c => !(releaseMatch st a p cb c))) r
          ≤ countTarget st.claims r := countTarget_filter_le _ _ _
        _ = claimCount st r := (claimCount_eq st r).symm
        _ ≤ 1 := hinv r
  · rw [if_neg hc]; exact h

/-- brocode_release_node preserves wellformedness. -/
theorem WF_releaseNode (st : Store) (a p cb : String) (h : WF st) :
    WF (releaseNode st a p cb).2 := by
  unfold releaseNode
  have hwf1 := WF_releaseClaim st a p cb h
  rcases hrc : releaseClaim st a p cb with ⟨o, st1⟩
  rw [hrc] at hwf1
  cases o with
  | none => exact hwf1
  | some u =>
    by_cases h2 : (countAgentClaims st1 a == 0) = true
    · have : WF (deleteAgent st1 a) := WF_removeRefs st1 _ hwf1
      simpa [h2] using this
    · simpa [h2] using hwf1

/-- SEND_MESSAGE preserves wellformedness. -/
theorem WF_dbSendMessage (st : Store) (tgt : String) (e : StoredEntry) (h : WF st) :
    WF (dbSendMessage st tgt e).2 := by
  unfold dbSendMessage
  cases hf : findAgent st tgt with
  | none => exact h
  | some a =>
    obtain ⟨hnd, hep, hinv⟩ := h
    refine ⟨hnd, ?_, hinv⟩
    intro k hk
    obtain ⟨ha, hn⟩ := hep k hk
    refine ⟨?_, hn⟩
    rw [any_name_map_update st.agents tgt k.agent
      (fun x => { x with messages := x.messages ++ [e] }) (fun _ => rfl)]
    exact ha

/-- The delivery step preserves wellformedness. -/
theorem WF_sendDeliver (st : Store) (t : String) (e : StoredEntry) (h : WF st) :
    WF (sendDeliver st t e).2 := by
  unfold sendDeliver
  have hwf2 := WF_dbSendMessage st t e h
  rcases hdb : dbSendMessage st t e with ⟨o, st1⟩
  rw [hdb] at hwf2
  cases o with
  | none => exact hwf2
  | some n1 => exact hwf2

/-- brocode_send_message preserves wellformedness. -/
theorem WF_sendMessage (st : Store) (f t c p ts : String) (h : WF st) :
    WF (sendMessage st f t c p ts).2 := by
  unfold sendMessage
  by_cases h1 : (f == t) = true
  · rw [if_pos h1]; exact h
  · rw [if_neg h1]
    by_cases h2 : pyBlank c = true
    · rw [if_pos h2]; exact h
    · rw [if_neg h2]
      cases hf : findAgent st t with
      | none => exact h
      | some a => exact WF_sendDeliver st t (StoredEntry.ok ⟨f, c, p, ts⟩) h

/-- brocode_clear_messages preserves wellformedness. -/
theorem WF_clearMessages (st : Store) (a : String) (h : WF st) :
    WF (clearMessages st a) := by
  unfold clearMessages dbClearMessages
  obtain ⟨hnd, hep, hinv⟩ := h
  refine ⟨hnd, ?_, hinv⟩
  intro k hk
  obtain ⟨ha, hn⟩ := hep k hk
  refine ⟨?_, hn⟩
  rw [any_name_map_update st.agents a k.agent
    (fun x => { x with messages := [] }) (fun _ => rfl)]
  exact ha

/-- Every branch of the graph-update dispatcher preserves wellformedness. -/
theorem WF_dispatchChange (st : Store) (cb : String) (c : Change) (h : WF st) :
    WF (dispatchChange st cb c) := by
  unfold dispatchChange upsertFile upsertDirectory upsertFunction upsertClass
    deleteFile deleteDirectory deleteFunction deleteClass
  repeat' split
  all_goals
    first
      | exact h
      | exact WF_linkIfSrcExists _ _ _ _ (WF_storeUpsertNode st _ h)
      | exact WF_linkIfSrcExists _ _ _ _
          (WF_linkIfSrcExists _ _ _ _ (WF_storeUpsertNode st _ h))
      | exact WF_removeRefs st _ h

/-- The batch loop preserves wellformedness. -/
theorem WF_processChanges (cb : String) (l : List Change) :
    ∀ (i : Nat) (st : Store), WF st → WF (processChanges cb l i st).2.2 := by
  induction l with
  | nil => intro i st h; exact h
  | cons c rest ih =>
    intro i st h
    unfold processChanges
    cases hv : validateChange c i with
    | error e => exact ih (i + 1) st h
    | ok u => exact ih (i + 1) (dispatchChange st cb c) (WF_dispatchChange st cb c h)

/-- brocode_update_graph preserves wellformedness. -/
theorem WF_updateGraph (st : Store) (cb : String) (chs : List Change) (h : WF st) :
    WF (updateGraph st cb chs).2 := by
  unfold updateGraph
  by_cases h1 : pyBlank cb = true
  · rw [if_pos h1]; exact h
  · rw [if_neg h1]
    by_cases h2 : chs.isEmpty = true
    · rw [if_pos h2]; exact h
    · rw [if_neg h2]
      exact WF_processChanges cb chs 0 st h

/-- Every operation preserves wellformedness, hence the at-most-one
claim invariant. -/
theorem WF_applyOp (st : Store) (op : Op) (h : WF st) : WF (applyOp st op) := by
  cases op with
  | claimOp a m p cb r => exact WF_claimNode st a m p cb r h
  | releaseOp a p cb => exact WF_releaseNode st a p cb h
  | updateOp cb chs => exact WF_updateGraph st cb chs h
  | sendOp f t c p ts => exact WF_sendMessage st f t c p ts h
  | getMsgsOp a => exact h
  | clearMsgsOp a => exact WF_clearMessages st a h

/-- Wellformedness is preserved along any operation sequence. -/
theorem WF_foldl (ops : List Op) : ∀ st : Store, WF st → WF (ops.foldl applyOp st) := by
  induction ops with
  | nil => intro st h; exact h
  | cons op rest ih =>
    intro st h
    rw [List.foldl_cons]
    exact ih (applyOp st op) (WF_applyOp st op h)

/-- MERGE of a containment edge leaves the claims untouched. -/
theorem claims_linkIfSrcExists (st : Store) (src : NodeRef) (rel : RelType) (dst : NodeRef) :
    (linkIfSrcExists st src rel dst).claims = st.claims := by
  unfold linkIfSrcExists
  split <;> rfl

/-- No branch of the graph-update dispatcher creates a CLAIM edge. -/
theorem claims_dispatchChange_subset (st : Store) (cb : String) (c : Change) :
    ∀ k ∈ (dispatchChange st cb c).claims, k ∈ st.claims := by
  unfold dispatchChange upsertFile upsertDirectory upsertFunction upsertClass
    deleteFile deleteDirectory deleteFunction deleteClass
  repeat' split
  all_goals
    first
      | intro k hk; exact hk
      | (intro k hk; rw [claims_linkIfSrcExists] at hk; exact hk)
      | (intro k hk;
         rw [claims_linkIfSrcExists, claims_linkIfSrcExists] at hk; exact hk)
      | (intro k hk; exact (List.mem_filter.mp hk).1)

/-- The batch loop never creates a CLAIM edge. -/
theorem claims_processChanges_subset (cb : String) (l : List Change) :
    ∀ (i : Nat) (st : Store), ∀ k ∈ (processChanges cb l i st).2.2.claims, k ∈ st.claims := by
  induction l with
  | nil => intro i st k hk; exact hk
  | cons c rest ih =>
    intro i st k hk
    unfold processChanges at hk
    cases hv : validateChange c i with
    | error e =>
      rw [hv] at hk
      exact ih (i + 1) st k hk
    | ok u =>
      rw [hv] at hk
      exact claims_dispatchChange_subset st cb c k (ih (i + 1) (dispatchChange st cb c) k hk)

/-- brocode_update_graph never creates a CLAIM edge. -/
theorem claims_updateGraph_subset (st : Store) (cb : String) (chs : List Change) :
    ∀ k ∈ (updateGraph st cb chs).2.claims, k ∈ st.claims := by
  unfold updateGraph
  by_cases h1 : pyBlank cb = true
  · rw [if_pos h1]; intro k hk; exact hk
  · rw [if_neg h1]
    by_cases h2 : chs.isEmpty = true
    · rw [if_pos h2]; intro k hk; exact hk
    · rw [if_neg h2]
      exact claims_processChanges_subset cb chs 0 st

/-- brocode_release_node never creates a CLAIM edge. -/
theorem claims_releaseNode_subset (st : Store) (a p cb : String) :
    ∀ k ∈ (releaseNode st a p cb).2.claims, k ∈ st.claims := by
  unfold releaseNode
  have hsub1 : ∀ k ∈ (releaseClaim st a p cb).2.claims, k ∈ st.claims := by
    unfold releaseClaim
    by_cases hc : st.claims.any (releaseMatch st a p cb) = true
    · rw [if_pos hc]
      intro k hk
      exact (List.mem_filter.mp hk).1
    · rw [if_neg hc]
      intro k hk
      exact hk
  rcases hrc : releaseClaim st a p cb with ⟨o, st1⟩
  rw [hrc] at hsub1
  cases o with
  | none => exact hsub1
  | some u =>
    by_cases h2 : (countAgentClaims st1 a == 0) = true
    · intro k hk
      have hk2 : k ∈ (deleteAgent st1 a).claims := by simpa [h2] using hk
      refine hsub1 k ?_
      unfold deleteAgent removeRefs at hk2
      exact (List.mem_filter.mp hk2).1
    · intro k hk
      exact hsub1 k (by simpa [h2] using hk)

/-- SEND_MESSAGE leaves the claims untouched. -/
theorem claims_sendMessage (st : Store) (f t c p ts : String) :
    (sendMessage st f t c p ts).2.claims = st.claims := by
  unfold sendMessage
  by_cases h1 : (f == t) = true
  · rw [if_pos h1]
  · rw [if_neg h1]
    by_cases h2 : pyBlank c = true
    · rw [if_pos h2]
    · rw [if_neg h2]
      cases hf : findAgent st t with
      | none => rfl
      | some a =>
        show (sendDeliver st t (StoredEntry.ok ⟨f, c, p, ts⟩)).2.claims = st.claims
        unfold sendDeliver
        rcases hdb : dbSendMessage st t (StoredEntry.ok ⟨f, c, p, ts⟩) with ⟨o, st1⟩
        have hst1 : st1.claims = st.claims := by
          have : (dbSendMessage st t (StoredEntry.ok ⟨f, c, p, ts⟩)).2.claims = st.claims := by
            unfold dbSendMessage
            cases hf2 : findAgent st t <;> rfl
          rw [hdb] at this
          exact this
        cases o with
        | none => exact hst1
        | some n1 => exact hst1

/-- brocode_clear_messages leaves the claims untouched. -/
theorem claims_clearMessages (st : Store) (a : String) :
    (clearMessages st a).claims = st.claims := rfl

/-- A claim call that mutates the claim list must have observed zero
existing claims on the target in its check transaction. -/
theorem claimNode_claims_unchanged (st : Store) (a m p cb r : String)
    (h : matchingClaims st p cb ≠ []) :
    (claimNode st a m p cb r).2.claims = st.claims := by
  unfold claimNode
  by_cases hb : pyBlank r = true
  · rw [if_pos hb]
  · rw [if_neg hb]
    cases hex : checkNodeExists st p cb with
    | none => rfl
    | some n0 =>
      show (claimAfterCheck st a m p cb r (matchingClaims st p cb)).2.claims = st.claims
      unfold claimAfterCheck
      cases hmc : matchingClaims st p cb with
      | nil => exact absurd hmc h
      | cons row rest =>
        show (if (row.agent_name == a) = true then (ClaimOutcome.alreadyYours p, st)
          else (ClaimOutcome.conflict row.agent_name row.claim_reason, st)).2.claims
            = st.claims
        by_cases hrow : (row.agent_name == a) = true
        · rw [if_pos hrow]
        · rw [if_neg hrow]

/-- C1: starting from a well-formed store in which every node carries at
most one CLAIM edge, every sequence of operations preserves the
invariant; a claim call creates CLAIM edges only when its check
transaction observed zero existing claims on the target, and no other
operation creates a CLAIM edge.  (Wellformedness also assumes the Neo4j
guarantees that MERGE never duplicates a node per key and relationships
never dangle.) -/
theorem claim_invariant_preserved (st : Store) (ops : List Op) (h : WF st) :
    ClaimInv (ops.foldl applyOp st) ∧
    (∀ (st2 : Store) (op : Op), op.isClaim = false →
      ∀ k ∈ (applyOp st2 op).claims, k ∈ st2.claims) ∧
    (∀ (st2 : Store) (a m p cb r : String),
      (claimNode st2 a m p cb r).2.claims ≠ st2.claims →
      matchingClaims st2 p cb = []) := by
  refine ⟨(WF_foldl ops st h).2.2, ?_, ?_⟩
  · intro st2 op hop k hk
    cases op with
    | claimOp a m p cb r => exact absurd hop (by simp [Op.isClaim])
    | releaseOp a p cb => exact claims_releaseNode_subset st2 a p cb k hk
    | updateOp cb chs => exact claims_updateGraph_subset st2 cb chs k hk
    | sendOp f t c p ts =>
      rw [show (applyOp st2 (Op.sendOp f t c p ts)).claims
        = (sendMessage st2 f t c p ts).2.claims from rfl, claims_sendMessage] at hk
      exact hk
    | getMsgsOp a => exact hk
    | clearMsgsOp a =>
      rw [show (applyOp st2 (Op.clearMsgsOp a)).claims
        = (clearMessages st2 a).claims from rfl, claims_clearMessages] at hk
      exact hk
  · intro st2 a m p cb r hne
    by_contra hmc
    exact hne (claimNode_claims_unchanged st2 a m p cb r hmc)

/-- Witness for C1: a claim followed by a release and a graph update on
a concrete well-formed store. -/
theorem claim_invariant_preserved_witness :
    ClaimInv ([Op.claimOp "A" "claude" "src/x.py" "repo" "fix",
        Op.updateOp "repo" [vc1W],
        Op.releaseOp "A" "src/x.py" "repo"].foldl applyOp baseStore) ∧
    (∀ (st2 : Store) (op : Op), op.isClaim = false →
      ∀ k ∈ (applyOp st2 op).claims, k ∈ st2.claims) ∧
    (∀ (st2 : Store) (a m p cb r : String),
      (claimNode st2 a m p cb r).2.claims ≠ st2.claims →
      matchingClaims st2 p cb = []) :=
  claim_invariant_preserved baseStore
    [Op.claimOp "A" "claude" "src/x.py" "repo" "fix",
     Op.updateOp "repo" [vc1W],
     Op.releaseOp "A" "src/x.py" "repo"]
    ⟨by unfold nodesNodup; decide,
     by unfold claimEndpointsOk; decide,
     claimInv_of_short baseStore (by decide)⟩

end BroCode
